import Mathlib

/-!
# Verification of the wasmer spectest generator (`src/lib/spectests/build/spectests.rs`)

A shallow embedding of the command-to-test-code translation engine:

* floats are represented by their raw bit patterns (`Nat`), and the Rust
  `f32`/`f64` classification methods used by the source (`is_nan`,
  `is_infinite`, `is_sign_negative`, `to_bits`) are given their standard
  IEEE-754 bit-level definitions;
* the `NaNCheck` trait implementations from the generated preamble
  (`is_quiet_nan`, `is_canonical_nan`) are transcribed literally, including
  the exact mask and target constants of the source;
* the value codec (`wabt2rust_value`, `wabt2rust_value_bare`, companions)
  is embedded with its output represented structurally: each `format!`
  template of the source becomes one constructor carrying the data that
  parametrizes the template;
* the stateful generator (`WastTestGenerator`) becomes explicit state
  passing over a `GenState` record; the output buffer is a list of
  `Fragment`s, one per `push_str` of a template in the source; the
  `HashMap<i32, Vec<String>>` of pending module calls becomes a total map
  `Int → List Name` (faithful because every source read goes through
  `entry(..).or_insert(Vec::new())`, so an absent entry and an empty entry
  are indistinguishable);
* the one genuine panic reachable inside the translation core (indexing
  `args[0]` on an empty argument list in
  `visit_assert_return_canonical_nan`) is modelled by `Option`.
-/

namespace Spectests

/-! ## Rust float bit-level primitives

Bit patterns are `Nat`s; an `f32` pattern is `< 2^32`, an `f64` pattern is
`< 2^64`.  The definitions below are the documented bit-level meaning of the
Rust standard-library methods invoked by the source. -/

/-- Rust `f32::is_nan` on a bit pattern: exponent bits all ones and a
non-zero mantissa. -/
def f32IsNan (b : Nat) : Bool :=
  (b &&& 0x7F800000 == 0x7F800000) && (b &&& 0x7FFFFF != 0)

/-- Rust `f32::is_infinite` on a bit pattern: exponent all ones,
mantissa zero. -/
def f32IsInfinite (b : Nat) : Bool :=
  b &&& 0x7FFFFFFF == 0x7F800000

/-- Rust `f32::is_sign_negative` on a bit pattern: the sign bit is set. -/
def f32IsSignNegative (b : Nat) : Bool :=
  b &&& 0x80000000 == 0x80000000

/-- Rust `f64::is_nan` on a bit pattern. -/
def f64IsNan (b : Nat) : Bool :=
  (b &&& 0x7FF0000000000000 == 0x7FF0000000000000) && (b &&& 0xFFFFFFFFFFFFF != 0)

/-- Rust `f64::is_infinite` on a bit pattern. -/
def f64IsInfinite (b : Nat) : Bool :=
  b &&& 0x7FFFFFFFFFFFFFFF == 0x7FF0000000000000

/-- Rust `f64::is_sign_negative` on a bit pattern. -/
def f64IsSignNegative (b : Nat) : Bool :=
  b &&& 0x8000000000000000 == 0x8000000000000000

/-! ## The `NaNCheck` trait of the generated preamble (`COMMON`)

Transcribed from `impl NaNCheck for f32` / `impl NaNCheck for f64` in
`spectests.rs`; `self.to_bits()` is the identity on our bit-pattern
representation.  The constants are copied digit for digit from the source
(in particular the second 64-bit target `0xFFF_FFFF_FFFF_FFFF`, which has
fifteen `F` digits in the source). -/

/-- Source `<f32 as NaNCheck>::is_quiet_nan`:
`self.is_nan() && (self.to_bits() & (1 << 22)) == (1 << 22)`. -/
def f32_is_quiet_nan (b : Nat) : Bool :=
  f32IsNan b && (b &&& (1 <<< 22) == (1 <<< 22))

/-- Source `<f32 as NaNCheck>::is_canonical_nan`:
the bit pattern XORed with `0b1____0000_0000____011_1111_1111_1111_1111_1111`
(that is `0x803FFFFF`) must equal `0xFFFF_FFFF` or `0x7FFF_FFFF`. -/
def f32_is_canonical_nan (b : Nat) : Bool :=
  let masked_value := b ^^^ 0x803FFFFF
  masked_value == 0xFFFFFFFF || masked_value == 0x7FFFFFFF

/-- Source `<f64 as NaNCheck>::is_quiet_nan`:
`self.is_nan() && (self.to_bits() & (1 << 51)) == (1 << 51)`. -/
def f64_is_quiet_nan (b : Nat) : Bool :=
  f64IsNan b && (b &&& (1 <<< 51) == (1 <<< 51))

/-- Source `<f64 as NaNCheck>::is_canonical_nan`: the bit pattern XORed with
`0b1____000_0000_0000____0111_..._1111` (that is `0x8007FFFFFFFFFFFF`) must
equal `0x7FFF_FFFF_FFFF_FFFF` or `0xFFF_FFFF_FFFF_FFFF`.  The second target
is transcribed exactly as written in the source: fifteen `F` digits, i.e.
`0x0FFFFFFFFFFFFFFF`, not sixteen. -/
def f64_is_canonical_nan (b : Nat) : Bool :=
  let masked_value := b ^^^ 0x8007FFFFFFFFFFFF
  masked_value == 0x7FFFFFFFFFFFFFFF || masked_value == 0xFFFFFFFFFFFFFFF

/-! ## The `Value` data model (`wabt::script::Value`)

Integers carry the Rust `i32`/`i64` value as an `Int`; floats carry their
full bit pattern, exactly as the spec's data model prescribes. -/

/-- Source `wabt::script::Value`: a tagged union over the four numeric kinds. -/
inductive Value where
  | i32 (v : Int)
  | i64 (v : Int)
  | f32 (bits : Nat)
  | f64 (bits : Nat)
deriving DecidableEq

/-- Bit-pattern well-formedness of a `Value`: float patterns fit their
width (integers are unconstrained by the claims). -/
def ValueWF : Value → Prop
  | .i32 _ => True
  | .i64 _ => True
  | .f32 b => b < 2 ^ 32
  | .f64 b => b < 2 ^ 64

instance (v : Value) : Decidable (ValueWF v) := by
  cases v <;> simp [ValueWF] <;> infer_instance

/-- Source `wabt2rust_type`: the short Rust type identifier of a `Value`. -/
def wabt2rust_type (v : Value) : String :=
  match v with
  | .i32 _ => "i32"
  | .i64 _ => "i64"
  | .f32 _ => "f32"
  | .f64 _ => "f64"

/-- Source `wabt2rust_type_destructure`: the `Value::XXX({placeholder})` pattern
used to destructure a runtime result. -/
def wabt2rust_type_destructure (v : Value) (placeholder : String) : String :=
  match v with
  | .i32 _ => "Value::I32(" ++ placeholder ++ ")"
  | .i64 _ => "Value::I64(" ++ placeholder ++ ")"
  | .f32 _ => "Value::F32(" ++ placeholder ++ ")"
  | .f64 _ => "Value::F64(" ++ placeholder ++ ")"

/-- Source `is_nan`: whether a `Value` is a float NaN (of either width). -/
def is_nanV (v : Value) : Bool :=
  match v with
  | .f32 b => f32IsNan b
  | .f64 b => f64IsNan b
  | _ => false

/-! ## The value codec output

Each constructor stands for one `format!` template of the source function
it is produced by; it carries exactly the data interpolated into that
template.  `f32Finite bits` stands for the literal `format!("{:?}", v)`
produced for a finite float — a decimal rendering of the float whose bit
pattern is `bits` (Rust's `Debug` formatting of floats is documented to
round-trip, which is what `evalBareLit`/`evalValueLit` below rely on for
this constructor). -/

/-- Output alphabet of `wabt2rust_value_bare` (unwrapped scalar literals). -/
inductive BareLit where
  | i32Cast (v : Int)        -- "{:?} as i32"
  | i64Cast (v : Int)        -- "{:?} as i64"
  | f32Inf                   -- "f32::INFINITY"
  | f32NegInf                -- "f32::NEG_INFINITY"
  | f32FromBits (bits : Nat) -- "f32::from_bits({:?})"
  | f32Finite (bits : Nat)   -- "{:?}"  (decimal literal of a finite f32)
  | f64Inf                   -- "f64::INFINITY"
  | f64NegInf                -- "f64::NEG_INFINITY"
  | f64FromBits (bits : Nat) -- "f64::from_bits({:?})"
  | f64Finite (bits : Nat)   -- "{:?}"  (decimal literal of a finite f64)
deriving DecidableEq

/-- Output alphabet of `wabt2rust_value` (literals wrapped in the
`Value::XXX(..)` tagged-union constructor). -/
inductive ValueLit where
  | i32Lit (v : Int)         -- "Value::I32({:?} as i32)"
  | i64Lit (v : Int)         -- "Value::I64({:?} as i64)"
  | f32Inf                   -- "Value::F32(f32::INFINITY)"
  | f32NegInf                -- "Value::F32(f32::NEG_INFINITY)"
  | f32FromBits (bits : Nat) -- "Value::F32(f32::from_bits({:?}))"
  | f32Finite (bits : Nat)   -- "Value::F32(({:?}f32))"
  | f64Inf                   -- "Value::F64(f64::INFINITY)"
  | f64NegInf                -- "Value::F64(f64::NEG_INFINITY)"
  | f64FromBits (bits : Nat) -- "Value::F64(f64::from_bits({:?}))"
  | f64Finite (bits : Nat)   -- "Value::F64(({:?}f64))"
deriving DecidableEq

/-- Source `wabt2rust_value_bare`: branch for branch from the source, testing
infinity first, then NaN, with the finite decimal as the fallthrough. -/
def wabt2rust_value_bare (v : Value) : BareLit :=
  match v with
  | .i32 v => .i32Cast v
  | .i64 v => .i64Cast v
  | .f32 b =>
    if f32IsInfinite b then
      if f32IsSignNegative b then .f32NegInf else .f32Inf
    else if f32IsNan b then
      -- Support for non-canonical NaNs
      .f32FromBits b
    else
      .f32Finite b
  | .f64 b =>
    if f64IsInfinite b then
      if f64IsSignNegative b then .f64NegInf else .f64Inf
    else if f64IsNan b then
      .f64FromBits b
    else
      .f64Finite b

/-- Source `wabt2rust_value`: same branch structure as the bare codec but the
emitted literal is wrapped in the `Value::XXX(..)` constructor. -/
def wabt2rust_value (v : Value) : ValueLit :=
  match v with
  | .i32 v => .i32Lit v
  | .i64 v => .i64Lit v
  | .f32 b =>
    if f32IsInfinite b then
      if f32IsSignNegative b then .f32NegInf else .f32Inf
    else if f32IsNan b then
      .f32FromBits b
    else
      .f32Finite b
  | .f64 b =>
    if f64IsInfinite b then
      if f64IsSignNegative b then .f64NegInf else .f64Inf
    else if f64IsNan b then
      .f64FromBits b
    else
      .f64Finite b

/-! ## Evaluation of emitted literals

The conceptual evaluator of the emitted literal grammar: compiling the
literal and reading back the resulting value's bit pattern.
`f32::INFINITY.to_bits() = 0x7F800000`, `f32::NEG_INFINITY.to_bits() =
0xFF800000` and the 64-bit analogues are IEEE-754 facts;
`f32::from_bits(b).to_bits() = b`; a finite decimal produced by Rust's
`Debug` formatting parses back to the same float. -/

/-- Evaluate a bare literal back to the `Value` it denotes. -/
def evalBareLit : BareLit → Value
  | .i32Cast v => .i32 v
  | .i64Cast v => .i64 v
  | .f32Inf => .f32 0x7F800000
  | .f32NegInf => .f32 0xFF800000
  | .f32FromBits b => .f32 b
  | .f32Finite b => .f32 b
  | .f64Inf => .f64 0x7FF0000000000000
  | .f64NegInf => .f64 0xFFF0000000000000
  | .f64FromBits b => .f64 b
  | .f64Finite b => .f64 b

/-- Evaluate a wrapped literal back to the `Value` it denotes. -/
def evalValueLit : ValueLit → Value
  | .i32Lit v => .i32 v
  | .i64Lit v => .i64 v
  | .f32Inf => .f32 0x7F800000
  | .f32NegInf => .f32 0xFF800000
  | .f32FromBits b => .f32 b
  | .f32Finite b => .f32 b
  | .f64Inf => .f64 0x7FF0000000000000
  | .f64NegInf => .f64 0xFFF0000000000000
  | .f64FromBits b => .f64 b
  | .f64Finite b => .f64 b

/-! ## Commands (`wabt::script::Command` / `CommandKind` / `Action`)

Module binaries are byte lists; the `message` fields that the source
matches with `_` are kept as `String`s. -/

/-- Source `wabt::script::Action`. -/
inductive Action where
  | invoke (module : Option String) (field : String) (args : List Value)
  | get (module : Option String) (field : String)
deriving DecidableEq

/-- Source `wabt::script::CommandKind`. -/
inductive CommandKind where
  | module (binary : List Nat) (name : Option String)
  | assertReturn (action : Action) (expected : List Value)
  | assertReturnCanonicalNan (action : Action)
  | assertReturnArithmeticNan (action : Action)
  | assertTrap (action : Action) (message : String)
  | assertInvalid (binary : List Nat) (message : String)
  | assertMalformed (binary : List Nat) (message : String)
  | assertUninstantiable (binary : List Nat) (message : String)
  | assertExhaustion (action : Action)
  | assertUnlinkable (binary : List Nat) (message : String)
  | register (name : Option String) (asName : String)
  | performAction (action : Action)
deriving DecidableEq

/-- Source `wabt::script::Command`: a source line number plus a kind. -/
structure Command where
  line : Nat
  kind : CommandKind
deriving DecidableEq

/-! ## Generated identifiers

The source builds callable-unit names with `format!`; we represent each
naming template structurally.  `command_name()` is
`format!("c{}_l{}", self.command_no, self.last_line)`; the per-kind unit
names append a fixed suffix to it. -/

/-- The suffix appended to `command_name()` for a registered callable
unit. -/
inductive UnitKind where
  | actionInvoke      -- "_action_invoke"
  | arithmeticNan     -- "_assert_return_arithmetic_nan"
  | canonicalNan      -- "_assert_return_canonical_nan"
deriving DecidableEq

/-- A generated callable-unit name. -/
inductive Name where
  | start (idx : Int)                            -- "start_module_{idx}"
  | unit (cmdNo : Int) (line : Nat) (kind : UnitKind) -- "c{cmdNo}_l{line}…"
deriving DecidableEq

/-! ## Output buffer fragments

One constructor per `push_str`ed `format!` template of the source,
carrying the interpolated data. -/

/-- The assertion block emitted inside a `…_action_invoke` unit by
`visit_action`, depending on the expected results. -/
inductive ActionAssertion where
  /-- Source `expected` was `None`: the empty assertion string. -/
  | noExpected
  /-- The NaN path: destructure the first result with
  `{return_type_destructure}`, `assert!((*result as {return_type}).is_nan())`
  and `assert_eq!((*result as {return_type}).is_sign_positive(),
  ({expected_result} as {return_type}).is_sign_positive())`. -/
  | nanSign (expectedResult : BareLit) (returnType : String)
      (returnTypeDestructure : String)
  /-- The exact path: `assert_eq!(result, Ok(vec![…]));` against the
  reconstructed expected sequence. -/
  | exactEq (expectedVecResult : List ValueLit)
deriving DecidableEq

/-- One buffer fragment per source template. -/
inductive Fragment where
  /-- The `BANNER` header pushed at the start of `consume`. -/
  | banner
  /-- Source `"\n// Line {}\n"`. -/
  | lineComment (line : Nat)
  /-- Source `fn create_module_{idx}() -> Instance { … }` embedding the
  disassembled module text (we carry the binary it came from). -/
  | createModule (idx : Int) (binary : List Nat)
  /-- Source `fn start_module_{idx}(vmctx: &mut Ctx) { … }`. -/
  | startFn (idx : Int)
  /-- Source `#[test] fn c{}_l{}_assert_invalid() { … assert!(module.is_err()…) }`. -/
  | assertInvalidTest (cmdNo : Int) (line : Nat) (binary : List Nat)
  /-- Source `#[test] fn c{}_l{}_assert_malformed() { … }`. -/
  | assertMalformedTest (cmdNo : Int) (line : Nat) (binary : List Nat)
  /-- A canonical/arithmetic-NaN unit `fn {name}(vmctx: &mut Ctx)` whose
  assertion matches the result against `Value::F32(fp) => fp.is_quiet_nan()`
  / `Value::F64(fp) => fp.is_quiet_nan()`. -/
  | nanUnit (name : Name) (field : String) (argsValues : List ValueLit)
  /-- An action unit `fn {name}(vmctx: &mut Ctx) -> Result<()>` invoking
  `{field}` with `{args_values}` and performing `{assertion}`. -/
  | actionUnit (name : Name) (field : String) (argsValues : List ValueLit)
      (assertion : ActionAssertion)
  /-- The standalone `#[test] fn c{}_l{}_assert_trap() { let mut instance =
  create_module_{moduleIdx}(); let result = {actionFnName}(&mut instance);
  assert!(result.is_err()); }`. -/
  | trapTest (cmdNo : Int) (line : Nat) (moduleIdx : Int) (actionFnName : Name)
  /-- The batched wrapper `#[test] fn test_module_{moduleIdx}() { let mut
  instance = create_module_{moduleIdx}(); {calls…} }`. -/
  | wrapper (moduleIdx : Int) (calls : List Name)
deriving DecidableEq

/-! ## Generator state (`WastTestGenerator`)

`module_calls : HashMap<i32, Vec<String>>` becomes a total map with
default `[]`: every source read goes through `entry(..).or_insert(Vec::new())`
and `remove` is only observable through such reads, so an absent entry and
an empty one are indistinguishable; `remove` is modelled by updating the
entry to `[]`. -/

/-- The mutable fields of `WastTestGenerator` (the `ScriptParser` is
externalized into the command list fed to `runCmds`). -/
structure GenState where
  last_module : Int
  last_line : Nat
  command_no : Int
  module_calls : Int → List Name
  buffer : List Fragment

/-- The freshly-constructed generator of `WastTestGenerator::new`. -/
def startState : GenState :=
  { last_module := 0, last_line := 0, command_no := 0,
    module_calls := fun _ => [], buffer := [] }

/-- Source `self.module_calls.entry(i).or_insert(Vec::new()).push(n)`. -/
def mcRegister (mc : Int → List Name) (i : Int) (n : Name) : Int → List Name :=
  fun j => if j = i then mc i ++ [n] else mc j

/-- Source `self.module_calls.remove(&i)` (observationally: the entry reads as
empty afterwards). -/
def mcRemove (mc : Int → List Name) (i : Int) : Int → List Name :=
  fun j => if j = i then [] else mc j

/-- Source `WastTestGenerator::flush_module_calls`: read the pending calls of
`module` (absent ⇒ `[]`), emit one batched wrapper if the list is
non-empty, then drop the entry. -/
def flushModuleCalls (module : Int) (s : GenState) : GenState :=
  let calls := s.module_calls module
  let s' := if calls.length > 0 then
      { s with buffer := s.buffer ++ [Fragment.wrapper module calls] }
    else s
  { s' with module_calls := mcRemove s'.module_calls module }

/-- Source `WastTestGenerator::visit_module`: flush the previous module, bump
`last_module`, emit the factory and the start hook, and register the start
hook on the new module's pending list. -/
def visitModule (binary : List Nat) (_name : Option String) (s : GenState) :
    GenState :=
  let s := flushModuleCalls s.last_module s
  let lm := s.last_module + 1
  let start_module_call := Name.start lm
  { s with
    last_module := lm,
    buffer := s.buffer ++ [Fragment.createModule lm binary, Fragment.startFn lm],
    module_calls := mcRegister s.module_calls lm start_module_call }

/-- Source `WastTestGenerator::visit_assert_invalid`. -/
def visitAssertInvalid (binary : List Nat) (s : GenState) : GenState :=
  { s with buffer := s.buffer
      ++ [Fragment.assertInvalidTest s.command_no s.last_line binary] }

/-- Source `WastTestGenerator::visit_assert_malformed`. -/
def visitAssertMalformed (binary : List Nat) (s : GenState) : GenState :=
  { s with buffer := s.buffer
      ++ [Fragment.assertMalformedTest s.command_no s.last_line binary] }

/-- Source `WastTestGenerator::visit_assert_return_arithmetic_nan`: for an
`Invoke`, emit the quiet-NaN-asserting unit and register it as pending;
any other action is ignored. -/
def visitAssertReturnArithmeticNan (action : Action) (s : GenState) : GenState :=
  match action with
  | .invoke _ field args =>
    let func_name := Name.unit s.command_no s.last_line .arithmeticNan
    let s := { s with buffer := s.buffer
        ++ [Fragment.nanUnit func_name field (args.map wabt2rust_value)] }
    { s with module_calls := mcRegister s.module_calls s.last_module func_name }
  | .get _ _ => s

/-- Source `WastTestGenerator::visit_assert_return_canonical_nan`: as the
arithmetic variant, except that the (unused) `_return_type` computation
indexes `args[0]` whenever `field` is neither promote special-case, which
panics on an empty argument list — modelled by `none`. -/
def visitAssertReturnCanonicalNan (action : Action) (s : GenState) :
    Option GenState :=
  match action with
  | .invoke _ field args =>
    if field = "f64.promote_f32" ∨ field = "f32.promote_f64" ∨ args ≠ [] then
      let func_name := Name.unit s.command_no s.last_line .canonicalNan
      let s := { s with buffer := s.buffer
          ++ [Fragment.nanUnit func_name field (args.map wabt2rust_value)] }
      some { s with
        module_calls := mcRegister s.module_calls s.last_module func_name }
    else
      none
  | .get _ _ => some s

/-- The assertion block that `visit_action` builds from the optional
expected results (only the first expected value is ever consulted). -/
def assertionFor (expected : Option (List Value)) : ActionAssertion :=
  match expected with
  | none => .noExpected
  | some [] => .exactEq []
  | some (e0 :: _) =>
    if is_nanV e0 then
      .nanSign (wabt2rust_value_bare e0) (wabt2rust_type e0)
        (wabt2rust_type_destructure e0 "result")
    else
      .exactEq [wabt2rust_value e0]

/-- Source `WastTestGenerator::visit_action`: for an `Invoke`, emit the action
unit and hand its name back for pending-list registration; for any other
action do nothing and return `None`. -/
def visitAction (action : Action) (expected : Option (List Value))
    (s : GenState) : GenState × Option Name :=
  match action with
  | .invoke _ field args =>
    let func_name := Name.unit s.command_no s.last_line .actionInvoke
    ({ s with buffer := s.buffer
        ++ [Fragment.actionUnit func_name field (args.map wabt2rust_value)
              (assertionFor expected)] },
     some func_name)
  | .get _ _ => (s, none)

/-- Source `WastTestGenerator::visit_assert_return`: emit the action unit and
register its name as pending on the current module. -/
def visitAssertReturn (action : Action) (expected : List Value)
    (s : GenState) : GenState :=
  match visitAction action (some expected) s with
  | (s', none) => s'
  | (s', some n) =>
    { s' with module_calls := mcRegister s'.module_calls s'.last_module n }

/-- Source `WastTestGenerator::visit_perform_action`: as `visit_assert_return`
but with no expected values. -/
def visitPerformAction (action : Action) (s : GenState) : GenState :=
  match visitAction action none s with
  | (s', none) => s'
  | (s', some n) =>
    { s' with module_calls := mcRegister s'.module_calls s'.last_module n }

/-- Source `WastTestGenerator::visit_assert_trap`: emit the action unit, then a
standalone `#[test]` asserting the invocation errors; the unit is *not*
registered on any pending list. -/
def visitAssertTrap (action : Action) (s : GenState) : GenState :=
  match visitAction action none s with
  | (s', none) => s'
  | (s', some n) =>
    { s' with buffer := s'.buffer
        ++ [Fragment.trapTest s'.command_no s'.last_line s'.last_module n] }

/-- Source `WastTestGenerator::visit_command`: the exhaustive dispatch.  The four
ignored kinds return the state untouched; the canonical-NaN handler is the
only fallible one. -/
def visitCommand (cmd : CommandKind) (s : GenState) : Option GenState :=
  match cmd with
  | .module binary name => some (visitModule binary name s)
  | .assertReturn action expected => some (visitAssertReturn action expected s)
  | .assertReturnCanonicalNan action => visitAssertReturnCanonicalNan action s
  | .assertReturnArithmeticNan action =>
    some (visitAssertReturnArithmeticNan action s)
  | .assertTrap action _ => some (visitAssertTrap action s)
  | .assertInvalid binary _ => some (visitAssertInvalid binary s)
  | .assertMalformed binary _ => some (visitAssertMalformed binary s)
  | .assertUninstantiable _ _ => some s
  | .assertExhaustion _ => some s
  | .assertUnlinkable _ _ => some s
  | .register _ _ => some s
  | .performAction action => some (visitPerformAction action s)

/-- One iteration of the `while let` loop in `consume`: record the line,
emit the line comment, dispatch, bump `command_no`. -/
def stepCommand (s : GenState) (c : Command) : Option GenState :=
  let s1 := { s with last_line := c.line,
                     buffer := s.buffer ++ [Fragment.lineComment c.line] }
  (visitCommand c.kind s1).map fun s2 =>
    { s2 with command_no := s2.command_no + 1 }

/-- The `while let` loop of `consume` over the (already parsed) command
stream. -/
def runCmds (s : GenState) : List Command → Option GenState
  | [] => some s
  | c :: cs => match stepCommand s c with
    | some s' => runCmds s' cs
    | none => none

/-- The trailing `for n in 1..self.last_module + 1` loop of `consume`:
flush module indices `1, …, k` in ascending order. -/
def flushUpTo (s : GenState) : Nat → GenState
  | 0 => s
  | k + 1 => flushModuleCalls ((k : Int) + 1) (flushUpTo s k)

/-- Source `WastTestGenerator::consume`: push the banner, drive the stream, then
flush every module index from 1 through `last_module` in ascending order. -/
def consume (cmds : List Command) : Option GenState :=
  (runCmds { startState with buffer := [Fragment.banner] } cmds).map fun s =>
    flushUpTo s s.last_module.toNat

/-- Source `WastTestGenerator::is_fat_test`: `self.command_no > 200`. -/
def is_fat_test (s : GenState) : Bool :=
  s.command_no > 200

/-- The final state of a successful run of `consume` (and `startState`
when the run panics; the claims only consult it under a success
hypothesis). -/
def genOf (cmds : List Command) : GenState :=
  (consume cmds).getD startState

/-! ## The bundle emitter (`generate_spectest`)

The three `out.write` calls become three output chunks; a fat script
writes none of them. -/

/-- One `out.write(..)` of `generate_spectest`. -/
inductive OutChunk where
  /-- Source `format!("mod test_{} {{\nuse super::*;\n", test_name)`. -/
  | modHeader (testName : String)
  /-- the generator's buffer. -/
  | script (buf : List Fragment)
  /-- Source `"\n}\n"`. -/
  | footer
deriving DecidableEq

/-- Source `generate_spectest`: run a generator over the script and append its
block to the artifact unless the script is fat. -/
def generate_spectest (test_name : String) (cmds : List Command) :
    Option (List OutChunk) :=
  (consume cmds).map fun g =>
    if is_fat_test g then []
    else [OutChunk.modHeader test_name, OutChunk.script g.buffer,
          OutChunk.footer]

/-! ## Observables over the output buffer -/

/-- The batched wrapper tests contained in a buffer, in emission order. -/
def wrappersOf (buf : List Fragment) : List (Int × List Name) :=
  buf.filterMap fun f =>
    match f with
    | .wrapper i c => some (i, c)
    | _ => none

/-- Flatten wrapper call lists, tagging each name with its wrapper's
module index. -/
def joinCalls : List (Int × List Name) → List (Int × Name)
  | [] => []
  | p :: rest => p.2.map (fun n => (p.1, n)) ++ joinCalls rest

/-- The tagged names of every wrapper in a buffer. -/
def wrapPairs (buf : List Fragment) : List (Int × Name) :=
  joinCalls (wrappersOf buf)

/-- The pending calls of the current module, tagged with its index. -/
def pendingAt (s : GenState) : List (Int × Name) :=
  (s.module_calls s.last_module).map fun n => (s.last_module, n)

/-- Source `[1, 2, …, n]` as integers. -/
def irange (n : Nat) : List Int :=
  (List.range n).map fun k => Int.ofNat (k + 1)

/-! ## Replay of registrations and trap names

`registeredAfter` replays the command stream with the very same
`stepCommand` semantics and lists, in order, every `(module index, name)`
pair pushed onto a pending list; `trapNamesAfter` lists the action-unit
names generated by `AssertTrap` commands. -/

/-- The pending-list registrations a single command performs from state
`s` (the state *before* `stepCommand`, so `last_line` is `c.line` and
`command_no` is still `s.command_no`). -/
def cmdRegs (s : GenState) (c : Command) : List (Int × Name) :=
  match c.kind with
  | .module _ _ => [(s.last_module + 1, Name.start (s.last_module + 1))]
  | .assertReturn (.invoke _ _ _) _ =>
    [(s.last_module, Name.unit s.command_no c.line .actionInvoke)]
  | .assertReturnCanonicalNan (.invoke _ _ _) =>
    [(s.last_module, Name.unit s.command_no c.line .canonicalNan)]
  | .assertReturnArithmeticNan (.invoke _ _ _) =>
    [(s.last_module, Name.unit s.command_no c.line .arithmeticNan)]
  | .performAction (.invoke _ _ _) =>
    [(s.last_module, Name.unit s.command_no c.line .actionInvoke)]
  | _ => []

/-- All registrations a command stream performs starting from `s`. -/
def registeredAfter (s : GenState) : List Command → List (Int × Name)
  | [] => []
  | c :: cs =>
    cmdRegs s c ++
      match stepCommand s c with
      | some s' => registeredAfter s' cs
      | none => []

/-- All registrations `consume cmds` performs. -/
def registeredPairs (cmds : List Command) : List (Int × Name) :=
  registeredAfter { startState with buffer := [Fragment.banner] } cmds

/-- The action-unit names generated by a single `AssertTrap` command. -/
def cmdTrapNames (s : GenState) (c : Command) : List Name :=
  match c.kind with
  | .assertTrap (.invoke _ _ _) _ =>
    [Name.unit s.command_no c.line .actionInvoke]
  | _ => []

/-- All trap-generated action-unit names of a command stream run from `s`. -/
def trapNamesAfter (s : GenState) : List Command → List Name
  | [] => []
  | c :: cs =>
    cmdTrapNames s c ++
      match stepCommand s c with
      | some s' => trapNamesAfter s' cs
      | none => []

/-- All trap-generated action-unit names of `consume cmds`. -/
def trapNames (cmds : List Command) : List Name :=
  trapNamesAfter { startState with buffer := [Fragment.banner] } cmds

/-- The number of `Module` commands in a stream. -/
def countModules (cmds : List Command) : Int :=
  match cmds with
  | [] => 0
  | c :: cs =>
    (match c.kind with
     | .module _ _ => 1
     | _ => 0) + countModules cs

/-- The names of every call of a list of wrappers, in order. -/
def callsJoin : List (Int × List Name) → List Name
  | [] => []
  | p :: rest => p.2 ++ callsJoin rest

/-! ## The stream invariant

`Inv s acc` relates a reachable generator state `s` to the list `acc` of
`(module index, name)` registrations performed so far.  Its heart is
`spine`: the names already flushed into wrappers followed by the pending
names of the current module are exactly the registrations, in order. -/

/-- Freshness bound for a registered name relative to the current
counters: start hooks were minted for existing module indices, unit names
for already-numbered commands. -/
def NameBound (s : GenState) : Name → Prop
  | .start i => 1 ≤ i ∧ i ≤ s.last_module
  | .unit n _ _ => 0 ≤ n ∧ n < s.command_no

/-- The inductive invariant of the generator run. -/
structure Inv (s : GenState) (acc : List (Int × Name)) : Prop where
  lm_nonneg : 0 ≤ s.last_module
  cn_nonneg : 0 ≤ s.command_no
  pending_only : ∀ i, i ≠ s.last_module → s.module_calls i = []
  spine : wrapPairs s.buffer ++ pendingAt s = acc
  widx : ∃ pre, (pre = [] ∨ (pre = [(0 : Int)] ∧ (0 : Int) ∈ acc.map Prod.fst))
      ∧ (wrappersOf s.buffer).map Prod.fst
          = pre ++ irange (s.last_module - 1).toNat
  no_wrap_zero : s.last_module = 0 → wrappersOf s.buffer = []
  wcalls_ne : ∀ p ∈ wrappersOf s.buffer, p.2 ≠ []
  wstart : ∀ p ∈ wrappersOf s.buffer, 1 ≤ p.1 → Name.start p.1 ∈ p.2
  pstart : 1 ≤ s.last_module →
    Name.start s.last_module ∈ s.module_calls s.last_module
  acc_idx : ∀ p ∈ acc, 0 ≤ p.1 ∧ p.1 ≤ s.last_module
  acc_bound : ∀ p ∈ acc, NameBound s p.2
  acc_nodup : (acc.map Prod.snd).Nodup

/-! ## Bit-level helper lemmas -/

theorem and_mask_eq_mod (b n m : Nat) (hm : m = 2 ^ n - 1) :
    b &&& m = b % 2 ^ n := by
  subst hm
  exact Nat.and_pow_two_sub_one_eq_mod b n

theorem and_single_bit_beq (b : Nat) (i : Nat) :
    (b &&& (1 <<< i) == (1 <<< i)) = b.testBit i := by
  have h1 : (1 : Nat) <<< i = 2 ^ i := Nat.one_shiftLeft i
  rw [h1, Nat.and_two_pow]
  cases h : b.testBit i
  · have h2 : (0 : Nat) ≠ 2 ^ i := (Nat.two_pow_pos i).ne
    simp [h2]
  · simp

/-- Source `is_nan` and `is_infinite` are mutually exclusive for `f32` patterns:
a NaN has a non-zero low-23-bit mantissa while an infinity's low 31 bits
are exactly the exponent mask. -/
theorem f32_nan_not_infinite {b : Nat} (h : f32IsNan b = true) :
    f32IsInfinite b = false := by
  unfold f32IsNan at h
  unfold f32IsInfinite
  simp only [Bool.and_eq_true, beq_iff_eq, bne_iff_ne, ne_eq] at h
  by_contra hinf
  simp only [Bool.not_eq_false, beq_iff_eq] at hinf
  apply h.2
  have h31 : b &&& 0x7FFFFFFF = b % 2 ^ 31 := and_mask_eq_mod b 31 _ (by norm_num)
  have h23 : b &&& 0x7FFFFF = b % 2 ^ 23 := and_mask_eq_mod b 23 _ (by norm_num)
  have hdvd : (2 : Nat) ^ 23 ∣ 2 ^ 31 := pow_dvd_pow 2 (by norm_num)
  have : b % 2 ^ 23 = b % 2 ^ 31 % 2 ^ 23 := (Nat.mod_mod_of_dvd b hdvd).symm
  rw [h23, this, ← h31, hinf]
  norm_num

/-- Source `is_nan` and `is_infinite` are mutually exclusive for `f64` patterns. -/
theorem f64_nan_not_infinite {b : Nat} (h : f64IsNan b = true) :
    f64IsInfinite b = false := by
  unfold f64IsNan at h
  unfold f64IsInfinite
  simp only [Bool.and_eq_true, beq_iff_eq, bne_iff_ne, ne_eq] at h
  by_contra hinf
  simp only [Bool.not_eq_false, beq_iff_eq] at hinf
  apply h.2
  have h63 : b &&& 0x7FFFFFFFFFFFFFFF = b % 2 ^ 63 :=
    and_mask_eq_mod b 63 _ (by norm_num)
  have h52 : b &&& 0xFFFFFFFFFFFFF = b % 2 ^ 52 :=
    and_mask_eq_mod b 52 _ (by norm_num)
  have hdvd : (2 : Nat) ^ 52 ∣ 2 ^ 63 := pow_dvd_pow 2 (by norm_num)
  have : b % 2 ^ 52 = b % 2 ^ 63 % 2 ^ 52 := (Nat.mod_mod_of_dvd b hdvd).symm
  rw [h52, this, ← h63, hinf]
  norm_num

/-- An infinite `f32` pattern below `2^32` is exactly `0x7F800000` or,
when the sign bit is set, `0xFF800000`. -/
theorem f32_infinite_bits {b : Nat} (hb : b < 2 ^ 32)
    (h : f32IsInfinite b = true) :
    (f32IsSignNegative b = true → b = 0xFF800000) ∧
    (f32IsSignNegative b = false → b = 0x7F800000) := by
  unfold f32IsInfinite at h
  simp only [beq_iff_eq] at h
  rw [and_mask_eq_mod b 31 _ (by norm_num)] at h
  have hsb : b &&& 0x80000000 = (b.testBit 31).toNat * 2 ^ 31 := by
    have := Nat.and_two_pow b 31
    norm_num at this ⊢
    exact this
  have htb : b.testBit 31 = decide (b / 2 ^ 31 % 2 = 1) :=
    Nat.testBit_to_div_mod
  have hdiv : b / 2 ^ 31 < 2 := by
    apply Nat.div_lt_of_lt_mul
    calc b < 2 ^ 32 := hb
    _ = 2 ^ 31 * 2 := by norm_num
  have hmod2 : b / 2 ^ 31 % 2 = b / 2 ^ 31 := Nat.mod_eq_of_lt hdiv
  constructor
  · intro hs
    unfold f32IsSignNegative at hs
    rw [hsb] at hs
    have hbit : b.testBit 31 = true := by
      cases htb' : b.testBit 31
      · rw [htb'] at hs
        simp at hs
      · rfl
    rw [htb, hmod2] at hbit
    have h1 : b / 2 ^ 31 = 1 := by simpa using hbit
    omega
  · intro hs
    unfold f32IsSignNegative at hs
    rw [hsb] at hs
    have hbit : b.testBit 31 = false := by
      cases htb' : b.testBit 31
      · rfl
      · rw [htb'] at hs
        simp at hs
    rw [htb, hmod2] at hbit
    have h1 : ¬ b / 2 ^ 31 = 1 := by simpa using hbit
    have h0 : b / 2 ^ 31 = 0 := by omega
    omega

/-- An infinite `f64` pattern below `2^64` is exactly `0x7FF0000000000000`
or, when the sign bit is set, `0xFFF0000000000000`. -/
theorem f64_infinite_bits {b : Nat} (hb : b < 2 ^ 64)
    (h : f64IsInfinite b = true) :
    (f64IsSignNegative b = true → b = 0xFFF0000000000000) ∧
    (f64IsSignNegative b = false → b = 0x7FF0000000000000) := by
  unfold f64IsInfinite at h
  simp only [beq_iff_eq] at h
  rw [and_mask_eq_mod b 63 _ (by norm_num)] at h
  have hsb : b &&& 0x8000000000000000 = (b.testBit 63).toNat * 2 ^ 63 := by
    have := Nat.and_two_pow b 63
    norm_num at this ⊢
    exact this
  have htb : b.testBit 63 = decide (b / 2 ^ 63 % 2 = 1) :=
    Nat.testBit_to_div_mod
  have hdiv : b / 2 ^ 63 < 2 := by
    apply Nat.div_lt_of_lt_mul
    calc b < 2 ^ 64 := hb
    _ = 2 ^ 63 * 2 := by norm_num
  have hmod2 : b / 2 ^ 63 % 2 = b / 2 ^ 63 := Nat.mod_eq_of_lt hdiv
  constructor
  · intro hs
    unfold f64IsSignNegative at hs
    rw [hsb] at hs
    have hbit : b.testBit 63 = true := by
      cases htb' : b.testBit 63
      · rw [htb'] at hs
        simp at hs
      · rfl
    rw [htb, hmod2] at hbit
    have h1 : b / 2 ^ 63 = 1 := by simpa using hbit
    omega
  · intro hs
    unfold f64IsSignNegative at hs
    rw [hsb] at hs
    have hbit : b.testBit 63 = false := by
      cases htb' : b.testBit 63
      · rfl
      · rw [htb'] at hs
        simp at hs
    rw [htb, hmod2] at hbit
    have h1 : ¬ b / 2 ^ 63 = 1 := by simpa using hbit
    have h0 : b / 2 ^ 63 = 0 := by omega
    omega

/-! ## List and observable lemmas -/

theorem wrappersOf_append (a b : List Fragment) :
    wrappersOf (a ++ b) = wrappersOf a ++ wrappersOf b := by
  unfold wrappersOf
  exact List.filterMap_append a b _

theorem joinCalls_append (a b : List (Int × List Name)) :
    joinCalls (a ++ b) = joinCalls a ++ joinCalls b := by
  induction a with
  | nil => rfl
  | cons p rest ih => simp [joinCalls, ih]

theorem callsJoin_append (a b : List (Int × List Name)) :
    callsJoin (a ++ b) = callsJoin a ++ callsJoin b := by
  induction a with
  | nil => rfl
  | cons p rest ih => simp [callsJoin, ih]

theorem joinCalls_map_snd (W : List (Int × List Name)) :
    (joinCalls W).map Prod.snd = callsJoin W := by
  induction W with
  | nil => rfl
  | cons p rest ih =>
    simp only [joinCalls, callsJoin, List.map_append, ih,
      List.append_cancel_right_eq]
    induction p.2 with
    | nil => rfl
    | cons n ns ihn => simp [ihn]

theorem irange_succ (n : Nat) :
    irange (n + 1) = irange n ++ [Int.ofNat (n + 1)] := by
  unfold irange
  rw [List.range_succ, List.map_append]
  rfl

theorem mem_irange {i : Int} {n : Nat} :
    i ∈ irange n ↔ 1 ≤ i ∧ i ≤ (n : Int) := by
  unfold irange
  simp only [List.mem_map, List.mem_range]
  constructor
  · rintro ⟨k, hk, rfl⟩
    simp only [Int.ofNat_eq_coe]
    omega
  · intro ⟨h1, h2⟩
    refine ⟨(i - 1).toNat, by omega, ?_⟩
    simp only [Int.ofNat_eq_coe]
    omega

theorem irange_nodup (n : Nat) : (irange n).Nodup := by
  unfold irange
  refine List.Nodup.map ?_ (List.nodup_range n)
  intro a b hab
  simp only [Int.ofNat_eq_coe] at hab
  omega

/-! ## State characterization lemmas -/

theorem flushModuleCalls_of_ne_nil {s : GenState} {i : Int}
    (h : s.module_calls i ≠ []) :
    flushModuleCalls i s
      = { s with
          buffer := s.buffer ++ [Fragment.wrapper i (s.module_calls i)],
          module_calls := mcRemove s.module_calls i } := by
  unfold flushModuleCalls
  have hl : (s.module_calls i).length > 0 := List.length_pos.mpr h
  simp [hl]

theorem flushModuleCalls_of_nil {s : GenState} {i : Int}
    (h : s.module_calls i = []) :
    flushModuleCalls i s = { s with module_calls := mcRemove s.module_calls i } := by
  unfold flushModuleCalls
  simp [h]

theorem stepCommand_some_elim {s : GenState} {c : Command} {s' : GenState}
    (h : stepCommand s c = some s') :
    ∃ s2, visitCommand c.kind
        { s with last_line := c.line,
                 buffer := s.buffer ++ [Fragment.lineComment c.line] } = some s2
      ∧ s' = { s2 with command_no := s2.command_no + 1 } := by
  simp only [stepCommand] at h
  rw [Option.map_eq_some'] at h
  obtain ⟨s2, hv, h2⟩ := h
  exact ⟨s2, hv, h2.symm⟩

/-! ## Invariant preservation building blocks -/

/-- Extending the buffer with wrapper-free fragments, moving `last_line`
and advancing `command_no` preserves the invariant with unchanged
registrations. -/
theorem inv_no_register {s : GenState} {acc : List (Int × Name)}
    (hinv : Inv s acc) (l : Nat) (c' : Int) (b' : List Fragment)
    (hc : s.command_no ≤ c') (hw : wrappersOf b' = wrappersOf s.buffer) :
    Inv { s with last_line := l, command_no := c', buffer := b' } acc := by
  obtain ⟨pre, hpre, heq⟩ := hinv.widx
  refine ⟨hinv.lm_nonneg, le_trans hinv.cn_nonneg hc, hinv.pending_only, ?_,
    ⟨pre, hpre, ?_⟩, ?_, ?_, ?_, hinv.pstart, hinv.acc_idx, ?_, hinv.acc_nodup⟩
  · show wrapPairs b' ++ pendingAt _ = acc
    unfold wrapPairs
    rw [hw]
    exact hinv.spine
  · show (wrappersOf b').map Prod.fst = _
    rw [hw]
    exact heq
  · intro h0
    show wrappersOf b' = []
    rw [hw]
    exact hinv.no_wrap_zero h0
  · intro p hp
    exact hinv.wcalls_ne p (by rwa [hw] at hp)
  · intro p hp
    exact hinv.wstart p (by rwa [hw] at hp)
  · intro p hp
    have := hinv.acc_bound p hp
    cases hn : p.2 with
    | start i => rw [hn] at this; exact this
    | unit n ln k =>
      rw [hn] at this
      exact ⟨this.1, lt_of_lt_of_le this.2 hc⟩

/-- Additionally registering the unit name of the current command on the
current module extends the registrations by exactly that pair. -/
theorem inv_register_unit {s : GenState} {acc : List (Int × Name)}
    (hinv : Inv s acc) (l l' : Nat) (k : UnitKind) (b' : List Fragment)
    (hw : wrappersOf b' = wrappersOf s.buffer) :
    Inv { s with
          last_line := l, command_no := s.command_no + 1, buffer := b',
          module_calls := mcRegister s.module_calls s.last_module
            (Name.unit s.command_no l' k) }
        (acc ++ [(s.last_module, Name.unit s.command_no l' k)]) := by
  obtain ⟨pre, hpre, heq⟩ := hinv.widx
  refine ⟨hinv.lm_nonneg,
    by have := hinv.cn_nonneg; show (0 : Int) ≤ s.command_no + 1; omega,
    ?_, ?_, ⟨pre, ?_, ?_⟩, ?_, ?_, ?_, ?_, ?_, ?_, ?_⟩
  · intro i hi
    show mcRegister s.module_calls s.last_module _ i = []
    unfold mcRegister
    rw [if_neg hi]
    exact hinv.pending_only i hi
  · show wrapPairs b' ++ pendingAt _ = _
    unfold wrapPairs
    rw [hw]
    have hpend : pendingAt { s with
        last_line := l, command_no := s.command_no + 1, buffer := b',
        module_calls := mcRegister s.module_calls s.last_module
          (Name.unit s.command_no l' k) }
        = pendingAt s ++ [(s.last_module, Name.unit s.command_no l' k)] := by
      unfold pendingAt mcRegister
      simp
    rw [hpend, ← List.append_assoc]
    have hsp := hinv.spine
    unfold wrapPairs at hsp
    rw [hsp]
  · rcases hpre with h | ⟨h1, h2⟩
    · exact Or.inl h
    · exact Or.inr ⟨h1, by rw [List.map_append]; exact List.mem_append_left _ h2⟩
  · show (wrappersOf b').map Prod.fst = _
    rw [hw]
    exact heq
  · intro h0
    show wrappersOf b' = []
    rw [hw]
    exact hinv.no_wrap_zero h0
  · intro p hp
    exact hinv.wcalls_ne p (by rwa [hw] at hp)
  · intro p hp
    exact hinv.wstart p (by rwa [hw] at hp)
  · intro hlm
    show Name.start s.last_module
        ∈ mcRegister s.module_calls s.last_module _ s.last_module
    unfold mcRegister
    rw [if_pos rfl]
    exact List.mem_append_left _ (hinv.pstart hlm)
  · intro p hp
    rcases List.mem_append.mp hp with h | h
    · exact hinv.acc_idx p h
    · rcases List.mem_singleton.mp h with rfl
      exact ⟨hinv.lm_nonneg, le_refl _⟩
  · intro p hp
    rcases List.mem_append.mp hp with h | h
    · have := hinv.acc_bound p h
      cases hn : p.2 with
      | start i => rw [hn] at this; exact this
      | unit n ln uk =>
        rw [hn] at this
        refine ⟨this.1, ?_⟩
        have h2 := this.2
        show n < s.command_no + 1
        omega
    · rcases List.mem_singleton.mp h with rfl
      refine ⟨hinv.cn_nonneg, ?_⟩
      show s.command_no < s.command_no + 1
      omega
  · rw [List.map_append]
    refine List.Nodup.append hinv.acc_nodup (List.nodup_singleton _) ?_
    intro nm hnm hnm'
    rcases List.mem_singleton.mp hnm' with rfl
    rcases List.mem_map.mp hnm with ⟨p, hp, hp2⟩
    have := hinv.acc_bound p hp
    rw [hp2] at this
    exact absurd this.2 (by omega)

/-- The wrapper observables of the fragments a `Module` command appends
besides its wrapper: none. -/
theorem wrappersOf_module_extras (l : Nat) (i : Int) (bin : List Nat) :
    wrappersOf [Fragment.lineComment l] = []
    ∧ wrappersOf [Fragment.createModule i bin, Fragment.startFn i] = [] := by
  constructor <;> rfl

/-- Introduction rule for `Inv` over explicit state components (avoids
record-projection noise in goals). -/
theorem inv_mk {lm : Int} {ll : Nat} {cn : Int} {mc : Int → List Name}
    {buf : List Fragment} {acc : List (Int × Name)}
    (h1 : 0 ≤ lm) (h2 : 0 ≤ cn)
    (h3 : ∀ i, i ≠ lm → mc i = [])
    (h4 : wrapPairs buf ++ (mc lm).map (fun n => (lm, n)) = acc)
    (h5 : ∃ pre, (pre = [] ∨ (pre = [(0 : Int)] ∧ (0 : Int) ∈ acc.map Prod.fst))
        ∧ (wrappersOf buf).map Prod.fst = pre ++ irange (lm - 1).toNat)
    (h6 : lm = 0 → wrappersOf buf = [])
    (h7 : ∀ p ∈ wrappersOf buf, p.2 ≠ [])
    (h8 : ∀ p ∈ wrappersOf buf, 1 ≤ p.1 → Name.start p.1 ∈ p.2)
    (h9 : 1 ≤ lm → Name.start lm ∈ mc lm)
    (h10 : ∀ p ∈ acc, 0 ≤ p.1 ∧ p.1 ≤ lm)
    (h11 : ∀ p ∈ acc, NameBound ⟨lm, ll, cn, mc, buf⟩ p.2)
    (h12 : (acc.map Prod.snd).Nodup) :
    Inv ⟨lm, ll, cn, mc, buf⟩ acc :=
  ⟨h1, h2, h3, h4, h5, h6, h7, h8, h9, h10, h11, h12⟩

/-- The `NameBound` predicate only depends on `last_module` and
`command_no`, monotonically. -/
theorem nameBound_mono {s : GenState} {lm cn : Int} {ll : Nat}
    {mc : Int → List Name} {buf : List Fragment} {n : Name}
    (h : NameBound s n) (hlm : s.last_module ≤ lm) (hcn : s.command_no ≤ cn) :
    NameBound ⟨lm, ll, cn, mc, buf⟩ n := by
  cases n with
  | start i =>
    obtain ⟨a, b⟩ := h
    exact ⟨a, le_trans b hlm⟩
  | unit m l k =>
    obtain ⟨a, b⟩ := h
    exact ⟨a, lt_of_lt_of_le b hcn⟩

/-- Invariant preservation for a `Module` command. -/
theorem inv_module_step {s : GenState} {acc : List (Int × Name)} {s' : GenState}
    {l : Nat} {bin : List Nat} {nm : Option String}
    (hinv : Inv s acc)
    (hstep : stepCommand s ⟨l, CommandKind.module bin nm⟩ = some s') :
    Inv s' (acc ++ [(s.last_module + 1, Name.start (s.last_module + 1))]) := by
  obtain ⟨s2, hv, hs'⟩ := stepCommand_some_elim hstep
  simp only [visitCommand, Option.some.injEq] at hv
  subst hs'
  rw [← hv]
  have hget : ∀ i : Int, mcRegister (mcRemove s.module_calls s.last_module)
      (s.last_module + 1) (Name.start (s.last_module + 1)) i
      = if i = s.last_module + 1 then [Name.start (s.last_module + 1)]
        else [] := by
    intro i
    unfold mcRegister mcRemove
    by_cases hi : i = s.last_module + 1
    · rw [if_pos hi, if_pos hi, if_neg (by omega)]
      have : s.module_calls (s.last_module + 1) = [] :=
        hinv.pending_only _ (by omega)
      rw [this]
      rfl
    · rw [if_neg hi, if_neg hi]
      by_cases hL : i = s.last_module
      · rw [if_pos hL]
      · rw [if_neg hL]
        exact hinv.pending_only i hL
  by_cases hpend : s.module_calls s.last_module = []
  · -- empty pending list: no wrapper is emitted by the flush, and (by
    -- `pstart`) this forces `last_module = 0`
    have hL0 : s.last_module = 0 := by
      by_contra hne
      have h1 : 1 ≤ s.last_module := by
        have := hinv.lm_nonneg
        omega
      have hmem := hinv.pstart h1
      rw [hpend] at hmem
      exact absurd hmem (List.not_mem_nil _)
    have hwnil : wrappersOf s.buffer = [] := hinv.no_wrap_zero hL0
    have hflush : flushModuleCalls s.last_module
        { s with last_line := l,
                 buffer := s.buffer ++ [Fragment.lineComment l] }
        = { s with last_line := l,
                   buffer := s.buffer ++ [Fragment.lineComment l],
                   module_calls := mcRemove s.module_calls s.last_module } :=
      flushModuleCalls_of_nil hpend
    have hvm : visitModule bin nm
        { s with last_line := l,
                 buffer := s.buffer ++ [Fragment.lineComment l] }
        = { s with
            last_line := l,
            last_module := s.last_module + 1,
            buffer := (s.buffer ++ [Fragment.lineComment l])
              ++ [Fragment.createModule (s.last_module + 1) bin,
                  Fragment.startFn (s.last_module + 1)],
            module_calls := mcRegister
              (mcRemove s.module_calls s.last_module)
              (s.last_module + 1) (Name.start (s.last_module + 1)) } := by
      unfold visitModule
      rw [hflush]
    rw [hvm]
    show Inv ⟨s.last_module + 1, l, s.command_no + 1,
      mcRegister (mcRemove s.module_calls s.last_module)
        (s.last_module + 1) (Name.start (s.last_module + 1)),
      (s.buffer ++ [Fragment.lineComment l])
        ++ [Fragment.createModule (s.last_module + 1) bin,
            Fragment.startFn (s.last_module + 1)]⟩ _
    have hbw : wrappersOf ((s.buffer ++ [Fragment.lineComment l])
        ++ [Fragment.createModule (s.last_module + 1) bin,
            Fragment.startFn (s.last_module + 1)]) = [] := by
      rw [wrappersOf_append, wrappersOf_append, hwnil]
      rfl
    have haccnil : acc = [] := by
      have hsp := hinv.spine
      unfold wrapPairs at hsp
      rw [hwnil] at hsp
      unfold pendingAt at hsp
      rw [hpend] at hsp
      simpa using hsp.symm
    refine inv_mk (by have := hinv.lm_nonneg; omega)
      (by have := hinv.cn_nonneg; omega) ?_ ?_ ?_ ?_ ?_ ?_ ?_ ?_ ?_ ?_
    · intro i hi
      rw [hget i, if_neg hi]
    · unfold wrapPairs
      rw [hbw, hget (s.last_module + 1), if_pos rfl, haccnil]
      rfl
    · refine ⟨[], Or.inl rfl, ?_⟩
      rw [hbw]
      have h0 : ((s.last_module + 1 - 1).toNat : Nat) = 0 := by omega
      rw [h0]
      rfl
    · intro h0
      exact absurd h0 (by have := hinv.lm_nonneg; omega)
    · intro p hp
      rw [hbw] at hp
      exact absurd hp (List.not_mem_nil _)
    · intro p hp
      rw [hbw] at hp
      exact absurd hp (List.not_mem_nil _)
    · intro _
      rw [hget (s.last_module + 1), if_pos rfl]
      exact List.mem_singleton.mpr rfl
    · intro p hp
      rw [haccnil] at hp
      rcases List.mem_append.mp hp with h | h
      · exact absurd h (List.not_mem_nil _)
      · rcases List.mem_singleton.mp h with rfl
        exact ⟨by have := hinv.lm_nonneg; omega, le_refl _⟩
    · intro p hp
      rw [haccnil] at hp
      rcases List.mem_append.mp hp with h | h
      · exact absurd h (List.not_mem_nil _)
      · rcases List.mem_singleton.mp h with rfl
        exact ⟨by have := hinv.lm_nonneg; omega, le_refl _⟩
    · rw [haccnil]
      simp
  · -- non-empty pending list: the flush emits exactly one wrapper
    have hflush : flushModuleCalls s.last_module
        { s with last_line := l,
                 buffer := s.buffer ++ [Fragment.lineComment l] }
        = { s with
            last_line := l,
            buffer := (s.buffer ++ [Fragment.lineComment l])
              ++ [Fragment.wrapper s.last_module
                    (s.module_calls s.last_module)],
            module_calls := mcRemove s.module_calls s.last_module } :=
      flushModuleCalls_of_ne_nil hpend
    have hvm : visitModule bin nm
        { s with last_line := l,
                 buffer := s.buffer ++ [Fragment.lineComment l] }
        = { s with
            last_line := l,
            last_module := s.last_module + 1,
            buffer := ((s.buffer ++ [Fragment.lineComment l])
              ++ [Fragment.wrapper s.last_module
                    (s.module_calls s.last_module)])
              ++ [Fragment.createModule (s.last_module + 1) bin,
                  Fragment.startFn (s.last_module + 1)],
            module_calls := mcRegister
              (mcRemove s.module_calls s.last_module)
              (s.last_module + 1) (Name.start (s.last_module + 1)) } := by
      unfold visitModule
      rw [hflush]
    rw [hvm]
    show Inv ⟨s.last_module + 1, l, s.command_no + 1,
      mcRegister (mcRemove s.module_calls s.last_module)
        (s.last_module + 1) (Name.start (s.last_module + 1)),
      ((s.buffer ++ [Fragment.lineComment l])
        ++ [Fragment.wrapper s.last_module (s.module_calls s.last_module)])
        ++ [Fragment.createModule (s.last_module + 1) bin,
            Fragment.startFn (s.last_module + 1)]⟩ _
    have hbw : wrappersOf (((s.buffer ++ [Fragment.lineComment l])
        ++ [Fragment.wrapper s.last_module (s.module_calls s.last_module)])
        ++ [Fragment.createModule (s.last_module + 1) bin,
            Fragment.startFn (s.last_module + 1)])
        = wrappersOf s.buffer
          ++ [(s.last_module, s.module_calls s.last_module)] := by
      rw [wrappersOf_append, wrappersOf_append, wrappersOf_append]
      show wrappersOf s.buffer ++ wrappersOf [Fragment.lineComment l] ++ _ ++ _
        = _
      have e1 : wrappersOf [Fragment.lineComment l] = [] := rfl
      have e2 : wrappersOf [Fragment.createModule (s.last_module + 1) bin,
          Fragment.startFn (s.last_module + 1)] = [] := rfl
      have e3 : wrappersOf [Fragment.wrapper s.last_module
          (s.module_calls s.last_module)]
          = [(s.last_module, s.module_calls s.last_module)] := rfl
      rw [e1, e2, e3, List.append_nil, List.append_nil]
    refine inv_mk (by have := hinv.lm_nonneg; omega)
      (by have := hinv.cn_nonneg; omega) ?_ ?_ ?_ ?_ ?_ ?_ ?_ ?_ ?_ ?_
    · intro i hi
      rw [hget i, if_neg hi]
    · unfold wrapPairs
      rw [hbw, joinCalls_append, hget (s.last_module + 1), if_pos rfl]
      have hjoin : joinCalls [((s.last_module : Int),
          s.module_calls s.last_module)]
          = (s.module_calls s.last_module).map
              (fun n => (s.last_module, n)) := by
        unfold joinCalls
        simp [joinCalls]
      rw [hjoin]
      have hsp := hinv.spine
      unfold wrapPairs at hsp
      unfold pendingAt at hsp
      rw [hsp]
      rfl
    · by_cases hL0 : s.last_module = 0
      · have hwnil : wrappersOf s.buffer = [] := hinv.no_wrap_zero hL0
        refine ⟨[(0 : Int)], Or.inr ⟨rfl, ?_⟩, ?_⟩
        · -- module 0's non-empty pending list is a suffix of acc
          have hsp := hinv.spine
          unfold wrapPairs at hsp
          rw [hwnil] at hsp
          unfold pendingAt at hsp
          obtain ⟨n, hn⟩ := List.exists_mem_of_ne_nil _ hpend
          have hmem : ((s.last_module, n) : Int × Name) ∈ acc := by
            rw [← hsp]
            exact List.mem_append_right _ (List.mem_map.mpr ⟨n, hn, rfl⟩)
          rw [List.map_append]
          refine List.mem_append_left _ ?_
          rw [← hL0]
          exact List.mem_map.mpr ⟨_, hmem, rfl⟩
        · rw [hbw, hwnil, hL0]
          have h0 : (((0 : Int) + 1 - 1).toNat : Nat) = 0 := by omega
          rw [h0]
          rfl
      · have h1 : 1 ≤ s.last_module := by have := hinv.lm_nonneg; omega
        obtain ⟨pre, hpre, heq⟩ := hinv.widx
        refine ⟨pre, ?_, ?_⟩
        · rcases hpre with h | ⟨ha, hb⟩
          · exact Or.inl h
          · refine Or.inr ⟨ha, ?_⟩
            rw [List.map_append]
            exact List.mem_append_left _ hb
        · rw [hbw, List.map_append, heq]
          have hsucc : ((s.last_module + 1 - 1).toNat : Nat)
              = (s.last_module - 1).toNat + 1 := by omega
          rw [hsucc, irange_succ]
          have hofnat : Int.ofNat ((s.last_module - 1).toNat + 1)
              = s.last_module := by
            simp only [Int.ofNat_eq_coe]
            omega
          rw [hofnat, ← List.append_assoc]
          rfl
    · intro h0
      exact absurd h0 (by have := hinv.lm_nonneg; omega)
    · intro p hp
      rw [hbw] at hp
      rcases List.mem_append.mp hp with h | h
      · exact hinv.wcalls_ne p h
      · rcases List.mem_singleton.mp h with rfl
        exact hpend
    · intro p hp hge
      rw [hbw] at hp
      rcases List.mem_append.mp hp with h | h
      · exact hinv.wstart p h hge
      · rcases List.mem_singleton.mp h with rfl
        exact hinv.pstart hge
    · intro _
      rw [hget (s.last_module + 1), if_pos rfl]
      exact List.mem_singleton.mpr rfl
    · intro p hp
      rcases List.mem_append.mp hp with h | h
      · have := hinv.acc_idx p h
        exact ⟨this.1, by omega⟩
      · rcases List.mem_singleton.mp h with rfl
        exact ⟨by have := hinv.lm_nonneg; omega, le_refl _⟩
    · intro p hp
      rcases List.mem_append.mp hp with h | h
      · exact nameBound_mono (hinv.acc_bound p h) (by omega) (by omega)
      · rcases List.mem_singleton.mp h with rfl
        exact ⟨by have := hinv.lm_nonneg; omega, le_refl _⟩
    · rw [List.map_append]
      refine List.Nodup.append hinv.acc_nodup (List.nodup_singleton _) ?_
      intro x hx hx'
      rcases List.mem_singleton.mp hx' with rfl
      rcases List.mem_map.mp hx with ⟨p, hp, hp2⟩
      have := hinv.acc_bound p hp
      rw [hp2] at this
      have h2 := this.2
      omega

theorem wrappersOf_push1 (buf : List Fragment) (f : Fragment)
    (hf : wrappersOf [f] = []) :
    wrappersOf (buf ++ [f]) = wrappersOf buf := by
  rw [wrappersOf_append, hf, List.append_nil]

theorem wrappersOf_push2 (buf : List Fragment) (f g : Fragment)
    (hf : wrappersOf [f] = []) (hg : wrappersOf [g] = []) :
    wrappersOf ((buf ++ [f]) ++ [g]) = wrappersOf buf := by
  rw [wrappersOf_append, wrappersOf_append, hf, hg, List.append_nil,
    List.append_nil]

theorem wrappersOf_push3 (buf : List Fragment) (f g h : Fragment)
    (hf : wrappersOf [f] = []) (hg : wrappersOf [g] = [])
    (hh : wrappersOf [h] = []) :
    wrappersOf (((buf ++ [f]) ++ [g]) ++ [h]) = wrappersOf buf := by
  rw [wrappersOf_append, wrappersOf_append, wrappersOf_append, hf, hg, hh,
    List.append_nil, List.append_nil, List.append_nil]

/-- Reduction of the canonical-NaN visitor on an `Invoke` action. -/
theorem visitCanonicalNan_invoke_eq (m : Option String) (field : String)
    (args : List Value) (s : GenState) :
    visitAssertReturnCanonicalNan (Action.invoke m field args) s
      = if field = "f64.promote_f32" ∨ field = "f32.promote_f64" ∨ args ≠ []
        then some { s with
          buffer := s.buffer ++ [Fragment.nanUnit
            (Name.unit s.command_no s.last_line .canonicalNan) field
            (args.map wabt2rust_value)],
          module_calls := mcRegister s.module_calls s.last_module
            (Name.unit s.command_no s.last_line .canonicalNan) }
        else none := rfl

/-- Invariant preservation across one command of the stream. -/
theorem step_inv {s : GenState} {c : Command} {s' : GenState}
    {acc : List (Int × Name)}
    (hinv : Inv s acc) (hstep : stepCommand s c = some s') :
    Inv s' (acc ++ cmdRegs s c) := by
  obtain ⟨l, kind⟩ := c
  cases kind with
  | module bin nm => exact inv_module_step hinv hstep
  | assertReturn a expected =>
    obtain ⟨s2, hv, hs'⟩ := stepCommand_some_elim hstep
    simp only [visitCommand, Option.some.injEq] at hv
    subst hs'
    rw [← hv]
    cases a with
    | invoke m field args =>
      exact inv_register_unit hinv l l .actionInvoke
        ((s.buffer ++ [Fragment.lineComment l])
          ++ [Fragment.actionUnit (Name.unit s.command_no l .actionInvoke)
                field (args.map wabt2rust_value) (assertionFor (some expected))])
        (wrappersOf_push2 _ _ _ rfl rfl)
    | get m field =>
      show Inv _ (acc ++ [])
      rw [List.append_nil]
      exact inv_no_register hinv l (s.command_no + 1)
        (s.buffer ++ [Fragment.lineComment l]) (by omega)
        (wrappersOf_push1 _ _ rfl)
  | assertReturnCanonicalNan a =>
    obtain ⟨s2, hv, hs'⟩ := stepCommand_some_elim hstep
    simp only [visitCommand] at hv
    subst hs'
    cases a with
    | invoke m field args =>
      rw [visitCanonicalNan_invoke_eq] at hv
      by_cases hcond : field = "f64.promote_f32" ∨ field = "f32.promote_f64"
          ∨ args ≠ []
      · rw [if_pos hcond] at hv
        simp only [Option.some.injEq] at hv
        rw [← hv]
        exact inv_register_unit hinv l l .canonicalNan
          ((s.buffer ++ [Fragment.lineComment l])
            ++ [Fragment.nanUnit (Name.unit s.command_no l .canonicalNan)
                  field (args.map wabt2rust_value)])
          (wrappersOf_push2 _ _ _ rfl rfl)
      · rw [if_neg hcond] at hv
        exact absurd hv (by simp)
    | get m field =>
      simp only [visitAssertReturnCanonicalNan, Option.some.injEq] at hv
      rw [← hv]
      show Inv _ (acc ++ [])
      rw [List.append_nil]
      exact inv_no_register hinv l (s.command_no + 1)
        (s.buffer ++ [Fragment.lineComment l]) (by omega)
        (wrappersOf_push1 _ _ rfl)
  | assertReturnArithmeticNan a =>
    obtain ⟨s2, hv, hs'⟩ := stepCommand_some_elim hstep
    simp only [visitCommand, Option.some.injEq] at hv
    subst hs'
    rw [← hv]
    cases a with
    | invoke m field args =>
      exact inv_register_unit hinv l l .arithmeticNan
        ((s.buffer ++ [Fragment.lineComment l])
          ++ [Fragment.nanUnit (Name.unit s.command_no l .arithmeticNan)
                field (args.map wabt2rust_value)])
        (wrappersOf_push2 _ _ _ rfl rfl)
    | get m field =>
      show Inv _ (acc ++ [])
      rw [List.append_nil]
      exact inv_no_register hinv l (s.command_no + 1)
        (s.buffer ++ [Fragment.lineComment l]) (by omega)
        (wrappersOf_push1 _ _ rfl)
  | assertTrap a msg =>
    obtain ⟨s2, hv, hs'⟩ := stepCommand_some_elim hstep
    simp only [visitCommand, Option.some.injEq] at hv
    subst hs'
    rw [← hv]
    show Inv _ (acc ++ [])
    rw [List.append_nil]
    cases a with
    | invoke m field args =>
      exact inv_no_register hinv l (s.command_no + 1)
        (((s.buffer ++ [Fragment.lineComment l])
          ++ [Fragment.actionUnit (Name.unit s.command_no l .actionInvoke)
                field (args.map wabt2rust_value) (assertionFor none)])
          ++ [Fragment.trapTest s.command_no l s.last_module
                (Name.unit s.command_no l .actionInvoke)])
        (by omega) (wrappersOf_push3 _ _ _ _ rfl rfl rfl)
    | get m field =>
      exact inv_no_register hinv l (s.command_no + 1)
        (s.buffer ++ [Fragment.lineComment l]) (by omega)
        (wrappersOf_push1 _ _ rfl)
  | assertInvalid bin msg =>
    obtain ⟨s2, hv, hs'⟩ := stepCommand_some_elim hstep
    simp only [visitCommand, Option.some.injEq] at hv
    subst hs'
    rw [← hv]
    show Inv _ (acc ++ [])
    rw [List.append_nil]
    exact inv_no_register hinv l (s.command_no + 1)
      ((s.buffer ++ [Fragment.lineComment l])
        ++ [Fragment.assertInvalidTest s.command_no l bin])
      (by omega) (wrappersOf_push2 _ _ _ rfl rfl)
  | assertMalformed bin msg =>
    obtain ⟨s2, hv, hs'⟩ := stepCommand_some_elim hstep
    simp only [visitCommand, Option.some.injEq] at hv
    subst hs'
    rw [← hv]
    show Inv _ (acc ++ [])
    rw [List.append_nil]
    exact inv_no_register hinv l (s.command_no + 1)
      ((s.buffer ++ [Fragment.lineComment l])
        ++ [Fragment.assertMalformedTest s.command_no l bin])
      (by omega) (wrappersOf_push2 _ _ _ rfl rfl)
  | assertUninstantiable bin msg =>
    obtain ⟨s2, hv, hs'⟩ := stepCommand_some_elim hstep
    simp only [visitCommand, Option.some.injEq] at hv
    subst hs'
    rw [← hv]
    show Inv _ (acc ++ [])
    rw [List.append_nil]
    exact inv_no_register hinv l (s.command_no + 1)
      (s.buffer ++ [Fragment.lineComment l]) (by omega)
      (wrappersOf_push1 _ _ rfl)
  | assertExhaustion a =>
    obtain ⟨s2, hv, hs'⟩ := stepCommand_some_elim hstep
    simp only [visitCommand, Option.some.injEq] at hv
    subst hs'
    rw [← hv]
    show Inv _ (acc ++ [])
    rw [List.append_nil]
    exact inv_no_register hinv l (s.command_no + 1)
      (s.buffer ++ [Fragment.lineComment l]) (by omega)
      (wrappersOf_push1 _ _ rfl)
  | assertUnlinkable bin msg =>
    obtain ⟨s2, hv, hs'⟩ := stepCommand_some_elim hstep
    simp only [visitCommand, Option.some.injEq] at hv
    subst hs'
    rw [← hv]
    show Inv _ (acc ++ [])
    rw [List.append_nil]
    exact inv_no_register hinv l (s.command_no + 1)
      (s.buffer ++ [Fragment.lineComment l]) (by omega)
      (wrappersOf_push1 _ _ rfl)
  | register nm asName =>
    obtain ⟨s2, hv, hs'⟩ := stepCommand_some_elim hstep
    simp only [visitCommand, Option.some.injEq] at hv
    subst hs'
    rw [← hv]
    show Inv _ (acc ++ [])
    rw [List.append_nil]
    exact inv_no_register hinv l (s.command_no + 1)
      (s.buffer ++ [Fragment.lineComment l]) (by omega)
      (wrappersOf_push1 _ _ rfl)
  | performAction a =>
    obtain ⟨s2, hv, hs'⟩ := stepCommand_some_elim hstep
    simp only [visitCommand, Option.some.injEq] at hv
    subst hs'
    rw [← hv]
    cases a with
    | invoke m field args =>
      exact inv_register_unit hinv l l .actionInvoke
        ((s.buffer ++ [Fragment.lineComment l])
          ++ [Fragment.actionUnit (Name.unit s.command_no l .actionInvoke)
                field (args.map wabt2rust_value) (assertionFor none)])
        (wrappersOf_push2 _ _ _ rfl rfl)
    | get m field =>
      show Inv _ (acc ++ [])
      rw [List.append_nil]
      exact inv_no_register hinv l (s.command_no + 1)
        (s.buffer ++ [Fragment.lineComment l]) (by omega)
        (wrappersOf_push1 _ _ rfl)

/-- The invariant over a whole surviving stream. -/
theorem run_inv : ∀ (cmds : List Command) (s g : GenState)
    (acc : List (Int × Name)),
    runCmds s cmds = some g → Inv s acc →
    Inv g (acc ++ registeredAfter s cmds) := by
  intro cmds
  induction cmds with
  | nil =>
    intro s g acc h hinv
    simp only [runCmds, Option.some.injEq] at h
    subst h
    show Inv s (acc ++ [])
    rw [List.append_nil]
    exact hinv
  | cons c cs ih =>
    intro s g acc h hinv
    cases hstep : stepCommand s c with
    | none =>
      simp only [runCmds, hstep] at h
      exact Option.noConfusion h
    | some s1 =>
      simp only [runCmds, hstep] at h
      have h1 := step_inv hinv hstep
      have h2 := ih s1 g _ h h1
      show Inv g (acc ++ registeredAfter s (c :: cs))
      have hreg : registeredAfter s (c :: cs)
          = cmdRegs s c ++ registeredAfter s1 cs := by
        simp only [registeredAfter, hstep]
      rw [hreg, ← List.append_assoc]
      exact h2

/-- The invariant holds at the state `consume` starts the stream from. -/
theorem inv_init : Inv { startState with buffer := [Fragment.banner] } [] := by
  refine inv_mk (le_refl 0) (le_refl 0) (fun i _ => rfl) rfl
    ⟨[], Or.inl rfl, rfl⟩ (fun _ => rfl) ?_ ?_ ?_ ?_ ?_ List.nodup_nil
  · intro p hp
    exact absurd hp (List.not_mem_nil _)
  · intro p hp
    exact absurd hp (List.not_mem_nil _)
  · intro h
    exact absurd h (by decide)
  · intro p hp
    exact absurd hp (List.not_mem_nil _)
  · intro p hp
    exact absurd hp (List.not_mem_nil _)

/-- Fields preserved by a flush. -/
theorem flushModuleCalls_fields (i : Int) (s : GenState) :
    (flushModuleCalls i s).command_no = s.command_no
    ∧ (flushModuleCalls i s).last_module = s.last_module
    ∧ (flushModuleCalls i s).last_line = s.last_line := by
  by_cases h : (s.module_calls i).length > 0 <;>
    simp [flushModuleCalls, h]

/-- Flushing a range of module indices whose pending lists are all empty
changes nothing observable. -/
theorem flushUpTo_empty (s : GenState) (k : Nat)
    (h : ∀ j : Nat, 1 ≤ j → j ≤ k → s.module_calls ((j : Nat) : Int) = []) :
    (flushUpTo s k).buffer = s.buffer
    ∧ (∀ i, (flushUpTo s k).module_calls i = s.module_calls i)
    ∧ (flushUpTo s k).last_module = s.last_module
    ∧ (flushUpTo s k).command_no = s.command_no := by
  induction k with
  | zero => exact ⟨rfl, fun _ => rfl, rfl, rfl⟩
  | succ k ih =>
    obtain ⟨hb, hm, hl, hc⟩ := ih (fun j h1 h2 => h j h1 (by omega))
    have hcalls : (flushUpTo s k).module_calls ((k : Int) + 1) = [] := by
      rw [hm]
      have := h (k + 1) (by omega) (le_refl _)
      have hcast : (((k + 1 : Nat) : Nat) : Int) = (k : Int) + 1 := by
        push_cast
        ring
      rw [hcast] at this
      exact this
    have hfl := flushModuleCalls_of_nil hcalls
    have hun : flushUpTo s (k + 1)
        = flushModuleCalls ((k : Int) + 1) (flushUpTo s k) := rfl
    rw [hun, hfl]
    refine ⟨hb, ?_, hl, hc⟩
    intro i
    show mcRemove (flushUpTo s k).module_calls ((k : Int) + 1) i
      = s.module_calls i
    unfold mcRemove
    by_cases hik : i = (k : Int) + 1
    · rw [if_pos hik, hik, ← hm]
      exact hcalls.symm
    · rw [if_neg hik]
      exact hm i

/-- The end-of-stream flush loop for a state satisfying `Inv`: when at
least one module exists it appends exactly the wrapper of the last module
(whose pending list is non-empty), and empties every pending list. -/
theorem flushUpTo_final (s : GenState)
    (hpo : ∀ i, i ≠ s.last_module → s.module_calls i = [])
    (hlm : 1 ≤ s.last_module)
    (hne : s.module_calls s.last_module ≠ []) :
    (flushUpTo s s.last_module.toNat).buffer
      = s.buffer ++ [Fragment.wrapper s.last_module
          (s.module_calls s.last_module)]
    ∧ (∀ i, (flushUpTo s s.last_module.toNat).module_calls i = [])
    ∧ (flushUpTo s s.last_module.toNat).last_module = s.last_module
    ∧ (flushUpTo s s.last_module.toNat).command_no = s.command_no := by
  obtain ⟨m, hm⟩ : ∃ m, s.last_module.toNat = m + 1 :=
    ⟨s.last_module.toNat - 1, by omega⟩
  rw [hm]
  have hmi : ((m : Int) + 1) = s.last_module := by omega
  obtain ⟨hb, hmc, hl, hc⟩ := flushUpTo_empty s m (by
    intro j h1 h2
    apply hpo
    omega)
  have hcalls : (flushUpTo s m).module_calls ((m : Int) + 1) ≠ [] := by
    rw [hmc, hmi]
    exact hne
  have hfl := flushModuleCalls_of_ne_nil hcalls
  have hun : flushUpTo s (m + 1)
      = flushModuleCalls ((m : Int) + 1) (flushUpTo s m) := rfl
  rw [hun, hfl]
  refine ⟨?_, ?_, ?_, ?_⟩
  · show (flushUpTo s m).buffer ++ _ = _
    rw [hb, hmc, hmi]
  · intro i
    show mcRemove (flushUpTo s m).module_calls ((m : Int) + 1) i = []
    unfold mcRemove
    by_cases hik : i = (m : Int) + 1
    · rw [if_pos hik]
    · rw [if_neg hik, hmc]
      apply hpo
      omega
  · show (flushUpTo s m).last_module = _
    rw [hl]
  · show (flushUpTo s m).command_no = _
    rw [hc]

/-- Eliminate a successful `consume` into its run and final flush. -/
theorem consume_some_elim {cmds : List Command} {g : GenState}
    (h : consume cmds = some g) :
    ∃ s, runCmds { startState with buffer := [Fragment.banner] } cmds = some s
      ∧ g = flushUpTo s s.last_module.toNat := by
  unfold consume at h
  rw [Option.map_eq_some'] at h
  obtain ⟨s, h1, h2⟩ := h
  exact ⟨s, h1, h2.symm⟩

/-- Source `genOf` recovers the value of a successful `consume`. -/
theorem consume_genOf {cmds : List Command}
    (hs : (consume cmds).isSome = true) : consume cmds = some (genOf cmds) := by
  unfold genOf
  cases hx : consume cmds with
  | none => rw [hx] at hs; exact absurd hs (by simp)
  | some g => rfl

/-- One step advances `command_no` by one and `last_module` by one exactly
on a `Module` command. -/
theorem stepCommand_counters {s : GenState} {c : Command} {s' : GenState}
    (h : stepCommand s c = some s') :
    s'.command_no = s.command_no + 1
    ∧ s'.last_module = s.last_module
        + (match c.kind with | .module _ _ => 1 | _ => 0) := by
  obtain ⟨s2, hv, hs'⟩ := stepCommand_some_elim h
  subst hs'
  obtain ⟨l, kind⟩ := c
  cases kind with
  | module bin nm =>
    simp only [visitCommand, Option.some.injEq] at hv
    rw [← hv]
    obtain ⟨hc, hl, _⟩ := flushModuleCalls_fields s.last_module
      { s with last_line := l, buffer := s.buffer ++ [Fragment.lineComment l] }
    constructor
    · show (visitModule bin nm _).command_no + 1 = s.command_no + 1
      unfold visitModule
      show (flushModuleCalls _ _).command_no + 1 = s.command_no + 1
      rw [hc]
    · show (visitModule bin nm _).last_module = s.last_module + 1
      unfold visitModule
      show (flushModuleCalls _ _).last_module + 1 = s.last_module + 1
      rw [hl]
  | assertReturn a expected =>
    simp only [visitCommand, Option.some.injEq] at hv
    rw [← hv]
    cases a with
    | invoke m field args =>
      exact ⟨rfl, by show s.last_module = s.last_module + 0; omega⟩
    | get m field =>
      exact ⟨rfl, by show s.last_module = s.last_module + 0; omega⟩
  | assertReturnCanonicalNan a =>
    simp only [visitCommand] at hv
    cases a with
    | invoke m field args =>
      rw [visitCanonicalNan_invoke_eq] at hv
      by_cases hcond : field = "f64.promote_f32" ∨ field = "f32.promote_f64"
          ∨ args ≠ []
      · rw [if_pos hcond] at hv
        simp only [Option.some.injEq] at hv
        rw [← hv]
        exact ⟨rfl, by show s.last_module = s.last_module + 0; omega⟩
      · rw [if_neg hcond] at hv
        exact absurd hv (by simp)
    | get m field =>
      simp only [visitAssertReturnCanonicalNan, Option.some.injEq] at hv
      rw [← hv]
      exact ⟨rfl, by show s.last_module = s.last_module + 0; omega⟩
  | assertReturnArithmeticNan a =>
    simp only [visitCommand, Option.some.injEq] at hv
    rw [← hv]
    cases a with
    | invoke m field args =>
      exact ⟨rfl, by show s.last_module = s.last_module + 0; omega⟩
    | get m field =>
      exact ⟨rfl, by show s.last_module = s.last_module + 0; omega⟩
  | assertTrap a msg =>
    simp only [visitCommand, Option.some.injEq] at hv
    rw [← hv]
    cases a with
    | invoke m field args =>
      exact ⟨rfl, by show s.last_module = s.last_module + 0; omega⟩
    | get m field =>
      exact ⟨rfl, by show s.last_module = s.last_module + 0; omega⟩
  | assertInvalid bin msg =>
    simp only [visitCommand, Option.some.injEq] at hv
    rw [← hv]
    exact ⟨rfl, by show s.last_module = s.last_module + 0; omega⟩
  | assertMalformed bin msg =>
    simp only [visitCommand, Option.some.injEq] at hv
    rw [← hv]
    exact ⟨rfl, by show s.last_module = s.last_module + 0; omega⟩
  | assertUninstantiable bin msg =>
    simp only [visitCommand, Option.some.injEq] at hv
    rw [← hv]
    exact ⟨rfl, by show s.last_module = s.last_module + 0; omega⟩
  | assertExhaustion a =>
    simp only [visitCommand, Option.some.injEq] at hv
    rw [← hv]
    exact ⟨rfl, by show s.last_module = s.last_module + 0; omega⟩
  | assertUnlinkable bin msg =>
    simp only [visitCommand, Option.some.injEq] at hv
    rw [← hv]
    exact ⟨rfl, by show s.last_module = s.last_module + 0; omega⟩
  | register nm asName =>
    simp only [visitCommand, Option.some.injEq] at hv
    rw [← hv]
    exact ⟨rfl, by show s.last_module = s.last_module + 0; omega⟩
  | performAction a =>
    simp only [visitCommand, Option.some.injEq] at hv
    rw [← hv]
    cases a with
    | invoke m field args =>
      exact ⟨rfl, by show s.last_module = s.last_module + 0; omega⟩
    | get m field =>
      exact ⟨rfl, by show s.last_module = s.last_module + 0; omega⟩

/-- Run-level counter accounting. -/
theorem runCmds_counters : ∀ (cmds : List Command) (s g : GenState),
    runCmds s cmds = some g →
    g.command_no = s.command_no + cmds.length
    ∧ g.last_module = s.last_module + countModules cmds := by
  intro cmds
  induction cmds with
  | nil =>
    intro s g h
    simp only [runCmds, Option.some.injEq] at h
    subst h
    constructor
    · simp
    · show s.last_module = s.last_module + countModules []
      unfold countModules
      omega
  | cons c cs ih =>
    intro s g h
    cases hstep : stepCommand s c with
    | none =>
      simp only [runCmds, hstep] at h
      exact Option.noConfusion h
    | some s1 =>
      simp only [runCmds, hstep] at h
      obtain ⟨hcn, hlm⟩ := stepCommand_counters hstep
      obtain ⟨ih1, ih2⟩ := ih s1 g h
      constructor
      · rw [ih1, hcn]
        simp only [List.length_cons]
        push_cast
        ring
      · have hcm : countModules (c :: cs)
            = (match c.kind with | .module _ _ => 1 | _ => 0)
              + countModules cs := rfl
        rw [ih2, hlm, hcm]
        omega

/-! ## Counting and membership helpers -/

theorem callsJoin_cons (p : Int × List Name) (rest : List (Int × List Name)) :
    callsJoin (p :: rest) = p.2 ++ callsJoin rest := rfl

theorem mem_callsJoin_of {W : List (Int × List Name)} {q : Int × List Name}
    {nm : Name} (hq : q ∈ W) (h : nm ∈ q.2) : nm ∈ callsJoin W := by
  induction W with
  | nil => exact absurd hq (List.not_mem_nil _)
  | cons p rest ih =>
    rw [callsJoin_cons]
    rcases List.mem_cons.mp hq with rfl | hq'
    · exact List.mem_append_left _ h
    · exact List.mem_append_right _ (ih hq')

theorem mem_joinCalls_of {W : List (Int × List Name)} {q : Int × List Name}
    {nm : Name} (hq : q ∈ W) (h : nm ∈ q.2) : (q.1, nm) ∈ joinCalls W := by
  induction W with
  | nil => exact absurd hq (List.not_mem_nil _)
  | cons p rest ih =>
    show (q.1, nm) ∈ p.2.map (fun n => (p.1, n)) ++ joinCalls rest
    rcases List.mem_cons.mp hq with rfl | hq'
    · exact List.mem_append_left _ (List.mem_map.mpr ⟨nm, h, rfl⟩)
    · exact List.mem_append_right _ (ih hq')

theorem countP_wrappers_of_count_one :
    ∀ (W : List (Int × List Name)) (nm : Name),
    (callsJoin W).count nm = 1 →
    W.countP (fun p => decide (nm ∈ p.2)) = 1 := by
  intro W
  induction W with
  | nil =>
    intro nm h
    simp [callsJoin] at h
  | cons p rest ih =>
    intro nm h
    rw [callsJoin_cons, List.count_append] at h
    rw [List.countP_cons]
    by_cases hmem : nm ∈ p.2
    · have hp1 : 0 < p.2.count nm := List.count_pos_iff.mpr hmem
      have hrest : (callsJoin rest).count nm = 0 := by omega
      have hrest0 : rest.countP (fun q => decide (nm ∈ q.2)) = 0 := by
        rw [List.countP_eq_zero]
        intro q hq
        simp only [decide_eq_true_eq]
        intro hmq
        have : 0 < (callsJoin rest).count nm :=
          List.count_pos_iff.mpr (mem_callsJoin_of hq hmq)
        omega
      rw [hrest0]
      simp [hmem]
    · have hp0 : p.2.count nm = 0 := List.count_eq_zero.mpr hmem
      have := ih nm (by omega)
      simp [hmem, this]

/-! ## Trap-name and registration accounting -/

theorem registeredAfter_unit_lb :
    ∀ (cmds : List Command) (s : GenState) (i n : Int) (ln : Nat)
      (k : UnitKind),
    (i, Name.unit n ln k) ∈ registeredAfter s cmds → s.command_no ≤ n := by
  intro cmds
  induction cmds with
  | nil =>
    intro s i n ln k h
    exact absurd h (List.not_mem_nil _)
  | cons c cs ih =>
    intro s i n ln k h
    rw [show registeredAfter s (c :: cs) = cmdRegs s c ++
        (match stepCommand s c with
         | some s' => registeredAfter s' cs
         | none => []) from rfl] at h
    rcases List.mem_append.mp h with hhead | htail
    · obtain ⟨l, kind⟩ := c
      cases kind with
      | module bin mn =>
        simp only [cmdRegs] at hhead
        rcases List.mem_singleton.mp hhead with heq
        have h2 := congrArg Prod.snd heq
        exact absurd h2 (by simp)
      | assertReturn a expected =>
        cases a with
        | invoke m field args =>
          simp only [cmdRegs] at hhead
          rcases List.mem_singleton.mp hhead with heq
          have h2 := congrArg Prod.snd heq
          simp only [Name.unit.injEq] at h2
          omega
        | get m field =>
          simp only [cmdRegs] at hhead
          exact absurd hhead (List.not_mem_nil _)
      | assertReturnCanonicalNan a =>
        cases a with
        | invoke m field args =>
          simp only [cmdRegs] at hhead
          rcases List.mem_singleton.mp hhead with heq
          have h2 := congrArg Prod.snd heq
          simp only [Name.unit.injEq] at h2
          omega
        | get m field =>
          simp only [cmdRegs] at hhead
          exact absurd hhead (List.not_mem_nil _)
      | assertReturnArithmeticNan a =>
        cases a with
        | invoke m field args =>
          simp only [cmdRegs] at hhead
          rcases List.mem_singleton.mp hhead with heq
          have h2 := congrArg Prod.snd heq
          simp only [Name.unit.injEq] at h2
          omega
        | get m field =>
          simp only [cmdRegs] at hhead
          exact absurd hhead (List.not_mem_nil _)
      | performAction a =>
        cases a with
        | invoke m field args =>
          simp only [cmdRegs] at hhead
          rcases List.mem_singleton.mp hhead with heq
          have h2 := congrArg Prod.snd heq
          simp only [Name.unit.injEq] at h2
          omega
        | get m field =>
          simp only [cmdRegs] at hhead
          exact absurd hhead (List.not_mem_nil _)
      | assertTrap a msg =>
        simp only [cmdRegs] at hhead
        exact absurd hhead (List.not_mem_nil _)
      | assertInvalid bin msg =>
        simp only [cmdRegs] at hhead
        exact absurd hhead (List.not_mem_nil _)
      | assertMalformed bin msg =>
        simp only [cmdRegs] at hhead
        exact absurd hhead (List.not_mem_nil _)
      | assertUninstantiable bin msg =>
        simp only [cmdRegs] at hhead
        exact absurd hhead (List.not_mem_nil _)
      | assertExhaustion a =>
        simp only [cmdRegs] at hhead
        exact absurd hhead (List.not_mem_nil _)
      | assertUnlinkable bin msg =>
        simp only [cmdRegs] at hhead
        exact absurd hhead (List.not_mem_nil _)
      | register rn an =>
        simp only [cmdRegs] at hhead
        exact absurd hhead (List.not_mem_nil _)
    · cases hstep : stepCommand s c with
      | none =>
        rw [hstep] at htail
        exact absurd htail (List.not_mem_nil _)
      | some s1 =>
        rw [hstep] at htail
        have := ih s1 i n ln k htail
        have hcn := (stepCommand_counters hstep).1
        omega

theorem trapNamesAfter_shape :
    ∀ (cmds : List Command) (s : GenState) (nm : Name),
    nm ∈ trapNamesAfter s cmds →
    ∃ n ln, nm = Name.unit n ln .actionInvoke ∧ s.command_no ≤ n := by
  intro cmds
  induction cmds with
  | nil =>
    intro s nm h
    exact absurd h (List.not_mem_nil _)
  | cons c cs ih =>
    intro s nm h
    rw [show trapNamesAfter s (c :: cs) = cmdTrapNames s c ++
        (match stepCommand s c with
         | some s' => trapNamesAfter s' cs
         | none => []) from rfl] at h
    rcases List.mem_append.mp h with hhead | htail
    · obtain ⟨l, kind⟩ := c
      cases kind with
      | assertTrap a msg =>
        cases a with
        | invoke m field args =>
          simp only [cmdTrapNames] at hhead
          rcases List.mem_singleton.mp hhead with rfl
          exact ⟨s.command_no, l, rfl, le_refl _⟩
        | get m field =>
          simp only [cmdTrapNames] at hhead
          exact absurd hhead (List.not_mem_nil _)
      | module bin mn =>
        simp only [cmdTrapNames] at hhead
        exact absurd hhead (List.not_mem_nil _)
      | assertReturn a expected =>
        simp only [cmdTrapNames] at hhead
        exact absurd hhead (List.not_mem_nil _)
      | assertReturnCanonicalNan a =>
        simp only [cmdTrapNames] at hhead
        exact absurd hhead (List.not_mem_nil _)
      | assertReturnArithmeticNan a =>
        simp only [cmdTrapNames] at hhead
        exact absurd hhead (List.not_mem_nil _)
      | assertInvalid bin msg =>
        simp only [cmdTrapNames] at hhead
        exact absurd hhead (List.not_mem_nil _)
      | assertMalformed bin msg =>
        simp only [cmdTrapNames] at hhead
        exact absurd hhead (List.not_mem_nil _)
      | assertUninstantiable bin msg =>
        simp only [cmdTrapNames] at hhead
        exact absurd hhead (List.not_mem_nil _)
      | assertExhaustion a =>
        simp only [cmdTrapNames] at hhead
        exact absurd hhead (List.not_mem_nil _)
      | assertUnlinkable bin msg =>
        simp only [cmdTrapNames] at hhead
        exact absurd hhead (List.not_mem_nil _)
      | register rn an =>
        simp only [cmdTrapNames] at hhead
        exact absurd hhead (List.not_mem_nil _)
      | performAction a =>
        simp only [cmdTrapNames] at hhead
        exact absurd hhead (List.not_mem_nil _)
    · cases hstep : stepCommand s c with
      | none =>
        rw [hstep] at htail
        exact absurd htail (List.not_mem_nil _)
      | some s1 =>
        rw [hstep] at htail
        obtain ⟨n, ln, hnm, hb⟩ := ih s1 nm htail
        have hcn := (stepCommand_counters hstep).1
        exact ⟨n, ln, hnm, by omega⟩

/-- Every registered name is either a start hook or a unit name bounded
below by the current counter: we only need that a *unit* name in the
registrations has `command_no ≥ s.command_no` (`registeredAfter_unit_lb`),
and dually for trap names; since a command registers nothing when it is a
trap, a trap name can never coincide with a registered name. -/
theorem trap_reg_disjoint :
    ∀ (cmds : List Command) (s : GenState) (nm : Name),
    nm ∈ trapNamesAfter s cmds →
    nm ∉ (registeredAfter s cmds).map Prod.snd := by
  intro cmds
  induction cmds with
  | nil =>
    intro s nm h
    exact absurd h (List.not_mem_nil _)
  | cons c cs ih =>
    intro s nm htrap hreg
    rw [show trapNamesAfter s (c :: cs) = cmdTrapNames s c ++
        (match stepCommand s c with
         | some s' => trapNamesAfter s' cs
         | none => []) from rfl] at htrap
    rw [show registeredAfter s (c :: cs) = cmdRegs s c ++
        (match stepCommand s c with
         | some s' => registeredAfter s' cs
         | none => []) from rfl, List.map_append] at hreg
    cases hstep : stepCommand s c with
    | none =>
      rw [hstep] at htrap hreg
      rcases List.mem_append.mp htrap with ht | ht
      · -- a head trap name forces the command to be `AssertTrap Invoke`,
        -- whose `cmdRegs` is empty; tail registrations are empty too
        obtain ⟨l, kind⟩ := c
        cases kind with
        | assertTrap a msg =>
          cases a with
          | invoke m field args =>
            rcases List.mem_append.mp hreg with hr | hr
            · simp only [cmdRegs, List.map_nil] at hr
              exact absurd hr (List.not_mem_nil _)
            · exact absurd hr (by simp)
          | get m field =>
            simp only [cmdTrapNames] at ht
            exact absurd ht (List.not_mem_nil _)
        | module bin mn => simp only [cmdTrapNames] at ht; exact absurd ht (List.not_mem_nil _)
        | assertReturn a expected => simp only [cmdTrapNames] at ht; exact absurd ht (List.not_mem_nil _)
        | assertReturnCanonicalNan a => simp only [cmdTrapNames] at ht; exact absurd ht (List.not_mem_nil _)
        | assertReturnArithmeticNan a => simp only [cmdTrapNames] at ht; exact absurd ht (List.not_mem_nil _)
        | assertInvalid bin msg => simp only [cmdTrapNames] at ht; exact absurd ht (List.not_mem_nil _)
        | assertMalformed bin msg => simp only [cmdTrapNames] at ht; exact absurd ht (List.not_mem_nil _)
        | assertUninstantiable bin msg => simp only [cmdTrapNames] at ht; exact absurd ht (List.not_mem_nil _)
        | assertExhaustion a => simp only [cmdTrapNames] at ht; exact absurd ht (List.not_mem_nil _)
        | assertUnlinkable bin msg => simp only [cmdTrapNames] at ht; exact absurd ht (List.not_mem_nil _)
        | register rn an => simp only [cmdTrapNames] at ht; exact absurd ht (List.not_mem_nil _)
        | performAction a => simp only [cmdTrapNames] at ht; exact absurd ht (List.not_mem_nil _)
      · exact absurd ht (List.not_mem_nil _)
    | some s1 =>
      rw [hstep] at htrap hreg
      have hcn := (stepCommand_counters hstep).1
      rcases List.mem_append.mp htrap with ht | ht
      · -- the command is an `AssertTrap` with `Invoke`; `nm` carries its
        -- `command_no`, every later registration a strictly larger one
        obtain ⟨l, kind⟩ := c
        cases kind with
        | assertTrap a msg =>
          cases a with
          | invoke m field args =>
            simp only [cmdTrapNames] at ht
            rcases List.mem_singleton.mp ht with rfl
            rcases List.mem_append.mp hreg with hr | hr
            · simp only [cmdRegs, List.map_nil] at hr
              exact absurd hr (List.not_mem_nil _)
            · rcases List.mem_map.mp hr with ⟨p, hp, hp2⟩
              obtain ⟨pi, pn⟩ := p
              cases pn with
              | start j => exact absurd hp2 (by simp)
              | unit n' ln' k' =>
                have hb := registeredAfter_unit_lb cs s1 pi n' ln' k' hp
                simp only at hp2
                cases hp2
                omega
          | get m field =>
            simp only [cmdTrapNames] at ht
            exact absurd ht (List.not_mem_nil _)
        | module bin mn => simp only [cmdTrapNames] at ht; exact absurd ht (List.not_mem_nil _)
        | assertReturn a expected => simp only [cmdTrapNames] at ht; exact absurd ht (List.not_mem_nil _)
        | assertReturnCanonicalNan a => simp only [cmdTrapNames] at ht; exact absurd ht (List.not_mem_nil _)
        | assertReturnArithmeticNan a => simp only [cmdTrapNames] at ht; exact absurd ht (List.not_mem_nil _)
        | assertInvalid bin msg => simp only [cmdTrapNames] at ht; exact absurd ht (List.not_mem_nil _)
        | assertMalformed bin msg => simp only [cmdTrapNames] at ht; exact absurd ht (List.not_mem_nil _)
        | assertUninstantiable bin msg => simp only [cmdTrapNames] at ht; exact absurd ht (List.not_mem_nil _)
        | assertExhaustion a => simp only [cmdTrapNames] at ht; exact absurd ht (List.not_mem_nil _)
        | assertUnlinkable bin msg => simp only [cmdTrapNames] at ht; exact absurd ht (List.not_mem_nil _)
        | register rn an => simp only [cmdTrapNames] at ht; exact absurd ht (List.not_mem_nil _)
        | performAction a => simp only [cmdTrapNames] at ht; exact absurd ht (List.not_mem_nil _)
      · -- the trap name comes from the tail: its `command_no` is at least
        -- the successor counter, a head registration uses the current one
        obtain ⟨n, ln, rfl, hb⟩ := trapNamesAfter_shape cs s1 _ ht
        rcases List.mem_append.mp hreg with hr | hr
        · obtain ⟨l, kind⟩ := c
          cases kind with
          | module bin mn =>
            simp only [cmdRegs, List.map_cons, List.map_nil] at hr
            rcases List.mem_singleton.mp hr with heq
            exact absurd heq (by simp)
          | assertReturn a expected =>
            cases a with
            | invoke m field args =>
              simp only [cmdRegs, List.map_cons, List.map_nil] at hr
              rcases List.mem_singleton.mp hr with heq
              simp only [Name.unit.injEq] at heq
              omega
            | get m field =>
              simp only [cmdRegs, List.map_nil] at hr
              exact absurd hr (List.not_mem_nil _)
          | assertReturnCanonicalNan a =>
            cases a with
            | invoke m field args =>
              simp only [cmdRegs, List.map_cons, List.map_nil] at hr
              rcases List.mem_singleton.mp hr with heq
              simp only [Name.unit.injEq] at heq
              omega
            | get m field =>
              simp only [cmdRegs, List.map_nil] at hr
              exact absurd hr (List.not_mem_nil _)
          | assertReturnArithmeticNan a =>
            cases a with
            | invoke m field args =>
              simp only [cmdRegs, List.map_cons, List.map_nil] at hr
              rcases List.mem_singleton.mp hr with heq
              simp only [Name.unit.injEq] at heq
              omega
            | get m field =>
              simp only [cmdRegs, List.map_nil] at hr
              exact absurd hr (List.not_mem_nil _)
          | performAction a =>
            cases a with
            | invoke m field args =>
              simp only [cmdRegs, List.map_cons, List.map_nil] at hr
              rcases List.mem_singleton.mp hr with heq
              simp only [Name.unit.injEq] at heq
              omega
            | get m field =>
              simp only [cmdRegs, List.map_nil] at hr
              exact absurd hr (List.not_mem_nil _)
          | assertTrap a msg =>
            simp only [cmdRegs, List.map_nil] at hr
            exact absurd hr (List.not_mem_nil _)
          | assertInvalid bin msg =>
            simp only [cmdRegs, List.map_nil] at hr
            exact absurd hr (List.not_mem_nil _)
          | assertMalformed bin msg =>
            simp only [cmdRegs, List.map_nil] at hr
            exact absurd hr (List.not_mem_nil _)
          | assertUninstantiable bin msg =>
            simp only [cmdRegs, List.map_nil] at hr
            exact absurd hr (List.not_mem_nil _)
          | assertExhaustion a =>
            simp only [cmdRegs, List.map_nil] at hr
            exact absurd hr (List.not_mem_nil _)
          | assertUnlinkable bin msg =>
            simp only [cmdRegs, List.map_nil] at hr
            exact absurd hr (List.not_mem_nil _)
          | register rn an =>
            simp only [cmdRegs, List.map_nil] at hr
            exact absurd hr (List.not_mem_nil _)
        · exact ih s1 _ ht hr

theorem map_snd_tag (lm : Int) (l : List Name) :
    (l.map (fun n => (lm, n))).map Prod.snd = l := by
  induction l with
  | nil => rfl
  | cons n ns ih => simp [ih]

/-- Source `flushModuleCalls` always removes the flushed entry, wrapper or not. -/
theorem flushModuleCalls_module_calls (i : Int) (s : GenState) :
    (flushModuleCalls i s).module_calls = mcRemove s.module_calls i := by
  by_cases h : (s.module_calls i).length > 0 <;>
    simp [flushModuleCalls, h]

/-- Shape of the final state of a successful `consume`: the run's final
state `s` satisfies the invariant with the stream's registrations, and the
trailing flush loop either does nothing (no modules) or appends exactly
the last module's wrapper. -/
theorem consume_shape (cmds : List Command) (g : GenState)
    (h : consume cmds = some g) :
    ∃ s, Inv s (registeredPairs cmds)
    ∧ s.command_no = (cmds.length : Int)
    ∧ s.last_module = countModules cmds
    ∧ g.last_module = s.last_module
    ∧ g.command_no = s.command_no
    ∧ ((s.last_module = 0 ∧ g = s)
       ∨ (1 ≤ s.last_module
          ∧ g.buffer = s.buffer ++ [Fragment.wrapper s.last_module
              (s.module_calls s.last_module)]
          ∧ s.module_calls s.last_module ≠ [])) := by
  obtain ⟨s, hrun, heq⟩ := consume_some_elim h
  have hinv : Inv s (registeredPairs cmds) :=
    run_inv cmds _ s [] hrun inv_init
  obtain ⟨hcn, hlm⟩ := runCmds_counters cmds _ s hrun
  have hcn' : s.command_no = (cmds.length : Int) := by
    rw [hcn]
    show (0 : Int) + _ = _
    omega
  have hlm' : s.last_module = countModules cmds := by
    rw [hlm]
    show (0 : Int) + _ = _
    omega
  rcases eq_or_lt_of_le hinv.lm_nonneg with hz | hpos
  · -- no module command: the flush loop is empty
    have hz' : s.last_module = 0 := hz.symm
    have htn : s.last_module.toNat = 0 := by omega
    rw [htn] at heq
    have hg : g = s := heq
    refine ⟨s, hinv, hcn', hlm', ?_, ?_, Or.inl ⟨hz', hg⟩⟩
    · rw [hg]
    · rw [hg]
  · have h1 : 1 ≤ s.last_module := hpos
    have hne : s.module_calls s.last_module ≠ [] :=
      List.ne_nil_of_mem (hinv.pstart h1)
    obtain ⟨hb, hmc, hl, hc⟩ := flushUpTo_final s hinv.pending_only h1 hne
    refine ⟨s, hinv, hcn', hlm', ?_, ?_, Or.inr ⟨h1, ?_, hne⟩⟩
    · rw [heq, hl]
    · rw [heq, hc]
    · rw [heq, hb]

/-! ## Claim C5 -/

/-- C5: a script whose command count exceeds 200 contributes zero
output chunks; one with at most 200 commands contributes its full block —
module wrapper line, generator buffer and closing brace. -/
theorem c5_fat_suppression (test_name : String) (cmds : List Command)
    (hs : (consume cmds).isSome = true) :
    generate_spectest test_name cmds
      = some (if 200 < cmds.length then []
              else [OutChunk.modHeader test_name,
                    OutChunk.script (genOf cmds).buffer, OutChunk.footer]) := by
  have hc := consume_genOf hs
  obtain ⟨s, hinv, hcn, hlm, hglm, hgcn, hcase⟩ :=
    consume_shape cmds (genOf cmds) hc
  unfold generate_spectest
  rw [hc, Option.map_some']
  have hfat : is_fat_test (genOf cmds) = decide (200 < cmds.length) := by
    unfold is_fat_test
    rw [hgcn, hcn]
    by_cases hl : 200 < cmds.length
    · have : (200 : Int) < (cmds.length : Int) := by exact_mod_cast hl
      simp [hl, this]
    · have : ¬ ((200 : Int) < (cmds.length : Int)) := by
        intro hcon
        exact hl (by exact_mod_cast hcon)
      simp [hl, this]
  rw [hfat]
  by_cases hl : 200 < cmds.length
  · simp [hl]
  · simp [hl]

/-- C5 witness: a two-command script is not fat and contributes its
full block. -/
theorem c5_fat_suppression_witness :
    (consume [⟨1, CommandKind.module [] none⟩,
      ⟨2, CommandKind.assertReturn (Action.invoke none "f" [])
        [Value.i32 7]⟩]).isSome = true ∧
    generate_spectest "t" [⟨1, CommandKind.module [] none⟩,
      ⟨2, CommandKind.assertReturn (Action.invoke none "f" [])
        [Value.i32 7]⟩]
      = some (if 200 < ([⟨1, CommandKind.module [] none⟩,
          ⟨2, CommandKind.assertReturn (Action.invoke none "f" [])
            [Value.i32 7]⟩] : List Command).length then []
        else [OutChunk.modHeader "t",
              OutChunk.script (genOf [⟨1, CommandKind.module [] none⟩,
                ⟨2, CommandKind.assertReturn (Action.invoke none "f" [])
                  [Value.i32 7]⟩]).buffer, OutChunk.footer]) :=
  ⟨rfl, c5_fat_suppression "t" _ rfl⟩

/-- After the final flush appends the last wrapper, the wrapper contents
are exactly the stream's registrations. -/
theorem final_wrap_pairs {acc : List (Int × Name)} {g s : GenState}
    (hspine : wrapPairs s.buffer ++ pendingAt s = acc)
    (hbuf : g.buffer = s.buffer ++ [Fragment.wrapper s.last_module
      (s.module_calls s.last_module)]) :
    wrappersOf g.buffer = wrappersOf s.buffer
      ++ [(s.last_module, s.module_calls s.last_module)]
    ∧ joinCalls (wrappersOf g.buffer) = acc
    ∧ callsJoin (wrappersOf g.buffer) = acc.map Prod.snd := by
  have hw : wrappersOf g.buffer = wrappersOf s.buffer
      ++ [(s.last_module, s.module_calls s.last_module)] := by
    rw [hbuf, wrappersOf_append]
    rfl
  have hjp : joinCalls (wrappersOf g.buffer) = acc := by
    rw [hw, joinCalls_append]
    have hsingle : joinCalls [((s.last_module : Int),
        s.module_calls s.last_module)] = pendingAt s := by
      show _ ++ joinCalls [] = _
      rw [show joinCalls ([] : List (Int × List Name)) = [] from rfl,
        List.append_nil]
      rfl
    rw [hsingle]
    exact hspine
  refine ⟨hw, hjp, ?_⟩
  rw [← joinCalls_map_snd, hjp]

theorem countP_fst_eq_count (W : List (Int × List Name)) (i : Int) :
    W.countP (fun p => p.1 == i) = (W.map Prod.fst).count i := by
  show W.countP (fun p => p.1 == i)
    = (W.map Prod.fst).countP (fun x => x == i)
  rw [List.countP_map]
  rfl

/-! ## Claim C3 -/

/-- C3: for a well-formed stream (every registration targets a module
index ≥ 1, i.e. no action precedes the first `Module` command), after
`consume` finishes every name that was registered on some pending list
occurs in exactly one emitted batched wrapper; the wrappers' module
indices are exactly `1, …, last_module` in ascending order (each index
flushed effectively once); and flushing an index with an empty pending
list emits nothing to the buffer. -/
theorem c3_registered_names_flushed_once (cmds : List Command)
    (hs : (consume cmds).isSome = true)
    (hwf : ∀ p ∈ registeredPairs cmds, 1 ≤ p.1) :
    (∀ nm ∈ (registeredPairs cmds).map Prod.snd,
      (wrappersOf (genOf cmds).buffer).countP
        (fun p => decide (nm ∈ p.2)) = 1)
    ∧ (wrappersOf (genOf cmds).buffer).map Prod.fst
        = irange (genOf cmds).last_module.toNat
    ∧ (∀ (t : GenState) (i : Int), t.module_calls i = [] →
        (flushModuleCalls i t).buffer = t.buffer) := by
  have hc := consume_genOf hs
  obtain ⟨s, hinv, -, -, hglm, -, hcase⟩ := consume_shape cmds _ hc
  have hflushnil : ∀ (t : GenState) (i : Int), t.module_calls i = [] →
      (flushModuleCalls i t).buffer = t.buffer := by
    intro t i hmc
    rw [flushModuleCalls_of_nil hmc]
  rcases hcase with ⟨hz, hg⟩ | ⟨h1, hbuf, hne⟩
  · have hacc : registeredPairs cmds = [] := by
      rw [List.eq_nil_iff_forall_not_mem]
      intro p hp
      have ha := (hinv.acc_idx p hp).2
      have hb := hwf p hp
      rw [hz] at ha
      omega
    refine ⟨?_, ?_, hflushnil⟩
    · intro nm hnm
      rw [hacc] at hnm
      exact absurd hnm (by simp)
    · rw [hg, hinv.no_wrap_zero hz]
      rw [show s.last_module.toNat = 0 from by omega]
      rfl
  · obtain ⟨hw, hjp, hcj⟩ := final_wrap_pairs hinv.spine hbuf
    refine ⟨?_, ?_, hflushnil⟩
    · intro nm hnm
      apply countP_wrappers_of_count_one
      rw [hcj]
      exact List.count_eq_one_of_mem hinv.acc_nodup hnm
    · obtain ⟨pre, hpre, heq⟩ := hinv.widx
      have hpre0 : pre = [] := by
        rcases hpre with h | ⟨ha, hb⟩
        · exact h
        · exfalso
          rcases List.mem_map.mp hb with ⟨p, hp, hp1⟩
          have := hwf p hp
          omega
      rw [hw, List.map_append, heq, hpre0, List.nil_append, hglm]
      rw [show s.last_module.toNat = (s.last_module - 1).toNat + 1 from
        by omega, irange_succ]
      have : Int.ofNat ((s.last_module - 1).toNat + 1) = s.last_module := by
        simp only [Int.ofNat_eq_coe]
        omega
      rw [this]
      rfl

/-- C3 witness: a one-module script; the lone registered start hook
appears in exactly one wrapper. -/
theorem c3_registered_names_witness :
    (consume [⟨1, CommandKind.module [] none⟩]).isSome = true
    ∧ (∀ p ∈ registeredPairs [⟨1, CommandKind.module [] none⟩], 1 ≤ p.1)
    ∧ (wrappersOf (genOf [⟨1, CommandKind.module [] none⟩]).buffer).countP
        (fun p => decide (Name.start 1 ∈ p.2)) = 1 :=
  ⟨rfl, by decide,
    (c3_registered_names_flushed_once [⟨1, CommandKind.module [] none⟩]
      rfl (by decide)).1 (Name.start 1) (by decide)⟩

/-! ## Claim C10 -/

/-- C10: every `Module` command registers its start hook
`start_module_{i}` on the new module index's pending list (so the list is
non-empty from then on), and after `consume` exactly one batched wrapper
is emitted for every module index `1, …, last_module` — which equals the
number of `Module` commands — each containing at least the start-hook
call. -/
theorem c10_module_wrapper_per_module (cmds : List Command)
    (hs : (consume cmds).isSome = true) :
    (genOf cmds).last_module = countModules cmds
    ∧ (∀ i : Int, 1 ≤ i → i ≤ (genOf cmds).last_module →
        (wrappersOf (genOf cmds).buffer).countP (fun p => p.1 == i) = 1)
    ∧ (∀ p ∈ wrappersOf (genOf cmds).buffer, 1 ≤ p.1 →
        Name.start p.1 ∈ p.2)
    ∧ (∀ (t t' : GenState) (bin : List Nat) (mn : Option String),
        visitCommand (CommandKind.module bin mn) t = some t' →
        t'.last_module = t.last_module + 1
        ∧ t'.module_calls t'.last_module
            = t.module_calls t'.last_module ++ [Name.start t'.last_module]) := by
  have hc := consume_genOf hs
  obtain ⟨s, hinv, -, hlm, hglm, -, hcase⟩ := consume_shape cmds _ hc
  have hcmd4 : ∀ (t t' : GenState) (bin : List Nat) (mn : Option String),
      visitCommand (CommandKind.module bin mn) t = some t' →
      t'.last_module = t.last_module + 1
      ∧ t'.module_calls t'.last_module
          = t.module_calls t'.last_module ++ [Name.start t'.last_module] := by
    intro t t' bin mn hv
    simp only [visitCommand, Option.some.injEq] at hv
    rw [← hv]
    have hlm' : (visitModule bin mn t).last_module = t.last_module + 1 := by
      show (flushModuleCalls t.last_module t).last_module + 1 = _
      rw [(flushModuleCalls_fields _ _).2.1]
    have hmc' : (visitModule bin mn t).module_calls
        = mcRegister (mcRemove t.module_calls t.last_module)
            (t.last_module + 1) (Name.start (t.last_module + 1)) := by
      show mcRegister (flushModuleCalls t.last_module t).module_calls
          ((flushModuleCalls t.last_module t).last_module + 1)
          (Name.start ((flushModuleCalls t.last_module t).last_module + 1))
        = _
      rw [flushModuleCalls_module_calls, (flushModuleCalls_fields _ _).2.1]
    refine ⟨hlm', ?_⟩
    rw [hlm', hmc']
    show mcRegister _ _ _ (t.last_module + 1)
      = t.module_calls (t.last_module + 1) ++ [Name.start (t.last_module + 1)]
    unfold mcRegister
    rw [if_pos rfl]
    show mcRemove t.module_calls t.last_module (t.last_module + 1) ++ _ = _
    unfold mcRemove
    rw [if_neg (by omega)]
  rcases hcase with ⟨hz, hg⟩ | ⟨h1, hbuf, hne⟩
  · refine ⟨by rw [hglm, hlm], ?_, ?_, hcmd4⟩
    · intro i hi1 hi2
      rw [hglm, hz] at hi2
      omega
    · intro p hp
      rw [hg, hinv.no_wrap_zero hz] at hp
      exact absurd hp (List.not_mem_nil _)
  · obtain ⟨hw, hjp, hcj⟩ := final_wrap_pairs hinv.spine hbuf
    refine ⟨by rw [hglm, hlm], ?_, ?_, hcmd4⟩
    · intro i hi1 hi2
      rw [hglm] at hi2
      obtain ⟨pre, hpre, heq⟩ := hinv.widx
      have hfst : (wrappersOf (genOf cmds).buffer).map Prod.fst
          = pre ++ irange s.last_module.toNat := by
        rw [hw, List.map_append, heq]
        rw [show s.last_module.toNat = (s.last_module - 1).toNat + 1 from
          by omega, irange_succ]
        have : Int.ofNat ((s.last_module - 1).toNat + 1) = s.last_module := by
          simp only [Int.ofNat_eq_coe]
          omega
        rw [this, List.append_assoc]
        rfl
      rw [countP_fst_eq_count, hfst, List.count_append]
      have hcpre : pre.count i = 0 := by
        rcases hpre with rfl | ⟨rfl, -⟩
        · rfl
        · rw [List.count_singleton]
          have : ((0 : Int) == i) = false := by
            simp only [beq_eq_false_iff_ne, ne_eq]
            omega
          rw [this]
          rfl
      have hcir : (irange s.last_module.toNat).count i = 1 := by
        apply List.count_eq_one_of_mem (irange_nodup _)
        apply mem_irange.mpr
        refine ⟨hi1, ?_⟩
        omega
      omega
    · intro p hp hge
      rw [hw] at hp
      rcases List.mem_append.mp hp with h | h
      · exact hinv.wstart p h hge
      · rcases List.mem_singleton.mp h with rfl
        exact hinv.pstart hge

/-- C10 witness: a single-module script emits exactly one
`test_module_1` wrapper containing the start hook. -/
theorem c10_module_wrapper_witness :
    (consume [⟨4, CommandKind.module [0] none⟩]).isSome = true
    ∧ (wrappersOf (genOf [⟨4, CommandKind.module [0] none⟩]).buffer).countP
        (fun p => p.1 == (1 : Int)) = 1 :=
  ⟨rfl, (c10_module_wrapper_per_module [⟨4, CommandKind.module [0] none⟩]
    rfl).2.1 1 (by decide) (by decide)⟩

/-! ## Claim C4 -/

/-- C4: an `AssertTrap` command with an `Invoke` action leaves
`module_calls` (every pending list) unchanged and appends exactly the
action unit plus a separate standalone `#[test]` that creates its own
instance, invokes the unit and asserts the result is an error; globally,
no trap-generated unit name ever occurs in a batched wrapper's call
list. -/
theorem c4_assert_trap_standalone :
    (∀ (t : GenState) (m : Option String) (field : String)
        (args : List Value) (msg : String),
      visitCommand (CommandKind.assertTrap (Action.invoke m field args) msg) t
        = some { t with buffer := (t.buffer
            ++ [Fragment.actionUnit
                  (Name.unit t.command_no t.last_line .actionInvoke) field
                  (args.map wabt2rust_value) ActionAssertion.noExpected])
            ++ [Fragment.trapTest t.command_no t.last_line t.last_module
                  (Name.unit t.command_no t.last_line .actionInvoke)] })
    ∧ (∀ (cmds : List Command), (consume cmds).isSome = true →
        ∀ nm ∈ trapNames cmds, ∀ p ∈ wrappersOf (genOf cmds).buffer,
          nm ∉ p.2) := by
  constructor
  · intro t m field args msg
    rfl
  · intro cmds hs nm hnm p hp hmem
    have hc := consume_genOf hs
    obtain ⟨s, hinv, -, -, -, -, hcase⟩ := consume_shape cmds _ hc
    have hdisj := trap_reg_disjoint cmds _ nm hnm
    rcases hcase with ⟨hz, hg⟩ | ⟨h1, hbuf, hne⟩
    · rw [hg, hinv.no_wrap_zero hz] at hp
      exact absurd hp (List.not_mem_nil _)
    · obtain ⟨hw, hjp, hcj⟩ := final_wrap_pairs hinv.spine hbuf
      have hin : (p.1, nm) ∈ joinCalls (wrappersOf (genOf cmds).buffer) :=
        mem_joinCalls_of hp hmem
      rw [hjp] at hin
      exact hdisj (List.mem_map.mpr ⟨(p.1, nm), hin, rfl⟩)

/-- C4 witness: in a module-then-trap script the trap-generated unit
name is absent from the lone wrapper's call list. -/
theorem c4_assert_trap_witness :
    (consume [⟨1, CommandKind.module [] none⟩,
      ⟨2, CommandKind.assertTrap (Action.invoke none "div" []) "m"⟩]).isSome
      = true
    ∧ Name.unit 1 2 UnitKind.actionInvoke
        ∈ trapNames [⟨1, CommandKind.module [] none⟩,
            ⟨2, CommandKind.assertTrap (Action.invoke none "div" []) "m"⟩]
    ∧ ((1 : Int), [Name.start 1])
        ∈ wrappersOf (genOf [⟨1, CommandKind.module [] none⟩,
            ⟨2, CommandKind.assertTrap (Action.invoke none "div" [])
              "m"⟩]).buffer
    ∧ Name.unit 1 2 UnitKind.actionInvoke
        ∉ (((1 : Int), [Name.start 1]) : Int × List Name).2 :=
  ⟨rfl, by decide, by decide,
    c4_assert_trap_standalone.2 [⟨1, CommandKind.module [] none⟩,
      ⟨2, CommandKind.assertTrap (Action.invoke none "div" []) "m"⟩] rfl
      (Name.unit 1 2 UnitKind.actionInvoke) (by decide)
      (((1 : Int), [Name.start 1])) (by decide)⟩

/-! ## Claim C1 -/

/-- C1 (code bug): the claim demands that 64-bit `is_canonical_nan`
accept exactly the patterns whose XOR with the sign+low-mantissa mask
equals `0xFFFFFFFFFFFFFFFF` or `0x7FFFFFFFFFFFFFFF`, analogously to the
32-bit case.  The source instead compares with `0xFFF_FFFF_FFFF_FFFF`
(fifteen `F` digits).  Consequently the positive canonical `f64` NaN
`0x7FF8000000000000` — whose masked value is exactly
`0xFFFFFFFFFFFFFFFF` — is rejected, while the non-NaN pattern
`0x8FF8000000000000` is accepted; the 32-bit implementation meanwhile
matches the claim on the canonical patterns. -/
theorem c1_canonical_nan_f64_target_bug :
    f64_is_canonical_nan 0x7FF8000000000000 = false ∧
    (0x7FF8000000000000 ^^^ 0x8007FFFFFFFFFFFF : Nat) = 0xFFFFFFFFFFFFFFFF ∧
    f64_is_canonical_nan 0x8FF8000000000000 = true ∧
    f64IsNan 0x8FF8000000000000 = false ∧
    f64_is_canonical_nan 0xFFF8000000000000 = true ∧
    f32_is_canonical_nan 0x7FC00000 = true ∧
    f32_is_canonical_nan 0xFFC00000 = true := by
  decide

/-! ## Claim C2 -/

/-- C2 (counterexample): the pattern `0x00400000` has bit 22 set but is
not a NaN (its exponent field is zero), and `is_quiet_nan` returns `false`
on it — refuting "returns true whenever bit 22 of its bit pattern is set
… regardless of the other bits". -/
theorem c2_quiet_nan_bit_only_counterexample :
    Nat.testBit 0x00400000 22 = true ∧
    f32_is_quiet_nan 0x00400000 = false ∧
    Nat.testBit 0x0008000000000000 51 = true ∧
    f64_is_quiet_nan 0x0008000000000000 = false := by
  decide

/-- C2 (amended): for every 32-bit pattern, `is_quiet_nan` returns
true iff the value is a NaN (exponent all ones, non-zero mantissa) *and*
bit 22 is set; in particular bit 22 clear always yields `false`; likewise
for 64-bit patterns with bit 51. -/
theorem c2_quiet_nan_classification (b : Nat) :
    f32_is_quiet_nan b = (f32IsNan b && b.testBit 22) ∧
    f64_is_quiet_nan b = (f64IsNan b && b.testBit 51) := by
  unfold f32_is_quiet_nan f64_is_quiet_nan
  rw [and_single_bit_beq b 22, and_single_bit_beq b 51]
  exact ⟨rfl, rfl⟩

/-! ## Claim C7 -/

/-- C7: for every infinite float bit pattern the codec (wrapped and
bare) emits the symbolic `INFINITY`/`NEG_INFINITY` constant of the
matching width according to the sign, never a decimal literal; for every
NaN pattern it emits a `from_bits` expression carrying the exact raw bit
pattern (in particular never the finite-decimal template and never a bare
NaN literal — the codec's output alphabet contains no bare-NaN form at
all). -/
theorem c7_codec_infinity_symbolic_nan_from_bits (b : Nat) :
    (f32IsInfinite b = true →
      wabt2rust_value (.f32 b)
        = (if f32IsSignNegative b then ValueLit.f32NegInf else ValueLit.f32Inf) ∧
      wabt2rust_value_bare (.f32 b)
        = (if f32IsSignNegative b then BareLit.f32NegInf else BareLit.f32Inf) ∧
      (∀ d, wabt2rust_value (.f32 b) ≠ ValueLit.f32Finite d) ∧
      (∀ d, wabt2rust_value_bare (.f32 b) ≠ BareLit.f32Finite d)) ∧
    (f32IsNan b = true →
      wabt2rust_value (.f32 b) = ValueLit.f32FromBits b ∧
      wabt2rust_value_bare (.f32 b) = BareLit.f32FromBits b) ∧
    (f64IsInfinite b = true →
      wabt2rust_value (.f64 b)
        = (if f64IsSignNegative b then ValueLit.f64NegInf else ValueLit.f64Inf) ∧
      wabt2rust_value_bare (.f64 b)
        = (if f64IsSignNegative b then BareLit.f64NegInf else BareLit.f64Inf) ∧
      (∀ d, wabt2rust_value (.f64 b) ≠ ValueLit.f64Finite d) ∧
      (∀ d, wabt2rust_value_bare (.f64 b) ≠ BareLit.f64Finite d)) ∧
    (f64IsNan b = true →
      wabt2rust_value (.f64 b) = ValueLit.f64FromBits b ∧
      wabt2rust_value_bare (.f64 b) = BareLit.f64FromBits b) := by
  refine ⟨fun hinf => ?_, fun hnan => ?_, fun hinf => ?_, fun hnan => ?_⟩
  · refine ⟨?_, ?_, ?_, ?_⟩ <;>
      cases hs : f32IsSignNegative b <;>
        simp [wabt2rust_value, wabt2rust_value_bare, hinf, hs]
  · have hinf := f32_nan_not_infinite hnan
    simp [wabt2rust_value, wabt2rust_value_bare, hinf, hnan]
  · refine ⟨?_, ?_, ?_, ?_⟩ <;>
      cases hs : f64IsSignNegative b <;>
        simp [wabt2rust_value, wabt2rust_value_bare, hinf, hs]
  · have hinf := f64_nan_not_infinite hnan
    simp [wabt2rust_value, wabt2rust_value_bare, hinf, hnan]

/-- C7 witness: the theorem applied to the negative-infinity pattern
`0xFF800000` and (separately) the quiet-NaN pattern `0x7FC00000`. -/
theorem c7_codec_witness :
    f32IsInfinite 0xFF800000 = true ∧
    wabt2rust_value (.f32 0xFF800000)
      = (if f32IsSignNegative 0xFF800000 then ValueLit.f32NegInf
         else ValueLit.f32Inf) ∧
    f32IsNan 0x7FC00000 = true ∧
    wabt2rust_value (.f32 0x7FC00000) = ValueLit.f32FromBits 0x7FC00000 :=
  ⟨by decide,
   ((c7_codec_infinity_symbolic_nan_from_bits 0xFF800000).1 (by decide)).1,
   by decide,
   (((c7_codec_infinity_symbolic_nan_from_bits 0x7FC00000).2.1 (by decide))).1⟩

/-! ## Claim C8 -/

/-- C8: for every well-formed `Value`, evaluating the literal emitted
by the value codec (wrapped or bare) reconstructs exactly the original
value — in particular every NaN payload and both signed infinities
round-trip bit for bit. -/
theorem c8_codec_round_trip (v : Value) (hwf : ValueWF v) :
    evalValueLit (wabt2rust_value v) = v ∧
    evalBareLit (wabt2rust_value_bare v) = v := by
  cases v with
  | i32 n => exact ⟨rfl, rfl⟩
  | i64 n => exact ⟨rfl, rfl⟩
  | f32 b =>
    have hb : b < 2 ^ 32 := hwf
    by_cases hinf : f32IsInfinite b = true
    · obtain ⟨hneg, hpos⟩ := f32_infinite_bits hb hinf
      cases hs : f32IsSignNegative b
      · have hbv := hpos hs
        subst hbv
        simp [wabt2rust_value, wabt2rust_value_bare, evalValueLit,
          evalBareLit, hinf, hs]
      · have hbv := hneg hs
        subst hbv
        simp [wabt2rust_value, wabt2rust_value_bare, evalValueLit,
          evalBareLit, hinf, hs]
    · have hinf' : f32IsInfinite b = false := by
        simpa using hinf
      by_cases hnan : f32IsNan b = true
      · simp [wabt2rust_value, wabt2rust_value_bare, evalValueLit,
          evalBareLit, hinf', hnan]
      · have hnan' : f32IsNan b = false := by simpa using hnan
        simp [wabt2rust_value, wabt2rust_value_bare, evalValueLit,
          evalBareLit, hinf', hnan']
  | f64 b =>
    have hb : b < 2 ^ 64 := hwf
    by_cases hinf : f64IsInfinite b = true
    · obtain ⟨hneg, hpos⟩ := f64_infinite_bits hb hinf
      cases hs : f64IsSignNegative b
      · have hbv := hpos hs
        subst hbv
        simp [wabt2rust_value, wabt2rust_value_bare, evalValueLit,
          evalBareLit, hinf, hs]
      · have hbv := hneg hs
        subst hbv
        simp [wabt2rust_value, wabt2rust_value_bare, evalValueLit,
          evalBareLit, hinf, hs]
    · have hinf' : f64IsInfinite b = false := by
        simpa using hinf
      by_cases hnan : f64IsNan b = true
      · simp [wabt2rust_value, wabt2rust_value_bare, evalValueLit,
          evalBareLit, hinf', hnan]
      · have hnan' : f64IsNan b = false := by simpa using hnan
        simp [wabt2rust_value, wabt2rust_value_bare, evalValueLit,
          evalBareLit, hinf', hnan']

/-- C8 witness: the round trip evaluated at a signaling-NaN payload. -/
theorem c8_codec_round_trip_witness :
    ValueWF (.f32 0xFFA00001) ∧
    evalValueLit (wabt2rust_value (.f32 0xFFA00001)) = .f32 0xFFA00001 :=
  ⟨by decide, (c8_codec_round_trip (.f32 0xFFA00001) (by decide)).1⟩

/-! ## Claim C9 -/

/-- C9: dispatching an `AssertUninstantiable`, `AssertExhaustion`,
`AssertUnlinkable` or `Register` command succeeds and returns the
generator state completely unchanged (`last_module`, `module_calls` and
the output buffer included). -/
theorem c9_ignored_commands_are_noops (s : GenState) (binary : List Nat)
    (msg : String) (action : Action) (nm : Option String) (asName : String) :
    visitCommand (.assertUninstantiable binary msg) s = some s ∧
    visitCommand (.assertExhaustion action) s = some s ∧
    visitCommand (.assertUnlinkable binary msg) s = some s ∧
    visitCommand (.register nm asName) s = some s :=
  ⟨rfl, rfl, rfl, rfl⟩

/-! ## Claim C6 -/

/-- C6: an `AssertReturn` with an `Invoke` action whose non-empty
expected sequence starts with a float NaN emits an action unit whose
assertion is the NaN path — destructure the result with the matching
float-variant pattern, assert `is_nan()` of the result, and compare only
the sign bits of result and expected (the `nanSign` template) — with the
expected value reconstructed `from_bits`; it is never the exact-equality
template.  A non-NaN first expected value instead yields the exact
`assert_eq!(result, Ok(vec![…]))` assertion against the reconstructed
expected sequence. -/
theorem c6_assert_return_nan_assertion (s : GenState) (m : Option String)
    (field : String) (args : List Value) (e0 : Value) (rest : List Value) :
    (is_nanV e0 = true →
      visitCommand (.assertReturn (.invoke m field args) (e0 :: rest)) s
        = some { s with
            buffer := s.buffer ++ [Fragment.actionUnit
              (Name.unit s.command_no s.last_line .actionInvoke) field
              (args.map wabt2rust_value)
              (ActionAssertion.nanSign (wabt2rust_value_bare e0)
                (wabt2rust_type e0) (wabt2rust_type_destructure e0 "result"))],
            module_calls := mcRegister s.module_calls s.last_module
              (Name.unit s.command_no s.last_line .actionInvoke) } ∧
      (∀ bits, e0 = .f32 bits →
        wabt2rust_value_bare e0 = BareLit.f32FromBits bits ∧
        wabt2rust_type e0 = "f32" ∧
        wabt2rust_type_destructure e0 "result" = "Value::F32(result)") ∧
      (∀ bits, e0 = .f64 bits →
        wabt2rust_value_bare e0 = BareLit.f64FromBits bits ∧
        wabt2rust_type e0 = "f64" ∧
        wabt2rust_type_destructure e0 "result" = "Value::F64(result)") ∧
      (∀ L, ActionAssertion.nanSign (wabt2rust_value_bare e0)
          (wabt2rust_type e0) (wabt2rust_type_destructure e0 "result")
          ≠ ActionAssertion.exactEq L)) ∧
    (is_nanV e0 = false →
      visitCommand (.assertReturn (.invoke m field args) (e0 :: rest)) s
        = some { s with
            buffer := s.buffer ++ [Fragment.actionUnit
              (Name.unit s.command_no s.last_line .actionInvoke) field
              (args.map wabt2rust_value)
              (ActionAssertion.exactEq [wabt2rust_value e0])],
            module_calls := mcRegister s.module_calls s.last_module
              (Name.unit s.command_no s.last_line .actionInvoke) }) := by
  constructor
  · intro hnan
    refine ⟨?_, ?_, ?_, ?_⟩
    · simp [visitCommand, visitAssertReturn, visitAction, assertionFor, hnan]
    · intro bits hbits
      subst hbits
      have hn : f32IsNan bits = true := hnan
      have hinf := f32_nan_not_infinite hn
      refine ⟨?_, rfl, rfl⟩
      simp [wabt2rust_value_bare, hinf, hn]
    · intro bits hbits
      subst hbits
      have hn : f64IsNan bits = true := hnan
      have hinf := f64_nan_not_infinite hn
      refine ⟨?_, rfl, rfl⟩
      simp [wabt2rust_value_bare, hinf, hn]
    · intro L h
      exact ActionAssertion.noConfusion h
  · intro hnan
    simp [visitCommand, visitAssertReturn, visitAction, assertionFor, hnan]

/-- C6 (counterexample): with the two-element expected sequence
`[I32(0), I32(1)]` (non-NaN first value) the emitted assertion is exact
equality against `Ok(vec![Value::I32(0 as i32)])` — reconstructing only
the *first* expected value — not against the full reconstructed expected
sequence, refuting the claim's final clause as stated. -/
theorem c6_assert_return_seq_counterexample :
    assertionFor (some [Value.i32 0, Value.i32 1])
      = ActionAssertion.exactEq [ValueLit.i32Lit 0]
    ∧ ActionAssertion.exactEq [ValueLit.i32Lit 0]
      ≠ ActionAssertion.exactEq
          (List.map wabt2rust_value [Value.i32 0, Value.i32 1])
    ∧ is_nanV (Value.i32 0) = false
    ∧ visitCommand (CommandKind.assertReturn (Action.invoke none "f" [])
        [Value.i32 0, Value.i32 1]) startState
      = some { startState with
          buffer := [Fragment.actionUnit (Name.unit 0 0 .actionInvoke) "f" []
            (ActionAssertion.exactEq [ValueLit.i32Lit 0])],
          module_calls := mcRegister startState.module_calls 0
            (Name.unit 0 0 .actionInvoke) } :=
  ⟨by decide, by decide, by decide, rfl⟩

/-- C6 witness: the theorem applied at the canonical 32-bit NaN
payload `0x7FC00000` expected value. -/
theorem c6_assert_return_nan_witness :
    is_nanV (.f32 0x7FC00000) = true ∧
    visitCommand (.assertReturn (.invoke none "f" []) [.f32 0x7FC00000])
        startState
      = some { startState with
          buffer := [Fragment.actionUnit (Name.unit 0 0 .actionInvoke) "f" []
            (ActionAssertion.nanSign (BareLit.f32FromBits 0x7FC00000) "f32"
              "Value::F32(result)")],
          module_calls := mcRegister startState.module_calls 0
            (Name.unit 0 0 .actionInvoke) } := by
  have h := (c6_assert_return_nan_assertion startState none "f" []
    (.f32 0x7FC00000) []).1 (by decide)
  refine ⟨by decide, ?_⟩
  rw [h.1]
  rfl

end Spectests
